import Mathlib

/-!
# ANN_DEVS: the neuron atomic model (`output_neuron.hpp`)

A shallow embedding of `cadmium::Neuron_Space::Neuron` and of its state
`NeuronState`, followed by theorems about its constructor, its external and
internal transition functions and its output function.

Modelling conventions.

* `double` is an arbitrary linearly ordered field `α`, and `exp` is passed as a
  function `α → α`. This is exact arithmetic: the source rounds every `+=`, `*`
  and `/` and can produce infinities and NaN, the model cannot. The theorems
  are therefore about phases, the counter, `sigma`, the ports and which fields
  a transition writes; a value of `weighted_sum` or `prediction` that appears in
  an example is the value in exact arithmetic.
* `int` is `Int`, without overflow. The counter `inputs_received` is not bounded
  by the number of ports (a channel that delivers in several steps is counted
  each time), so the theorem that equates it with a number of deliveries is
  stated for runs too short for a 32-bit counter to overflow. The source compares the
  counter with a `size_t`, which converts it: a non-negative counter keeps its
  value, and a negative one becomes a number above `2^63`, which no vector has
  as its size, so it compares unequal, as it does in `Int`.
* A failed `assert` stops the call: it is `Except.error`, carrying the message
  and the object as it stood when the assertion was reached.
* A port is the bag of messages it currently holds; the coordinator fills the
  input ports before `externalTransition` and reads the output ports after
  `output`.
* A reachable state is what `run` returns from the constructed state on a list
  of external and internal events, in any order. `Traced.log` keeps the external
  events read since `inputs_received` was last set to 0; it is bookkeeping for
  the statements and no transition reads it.
-/

namespace Neuron_Space

/-- Enum for representing the states (`enum class Neuron_States`). -/
inductive Neuron_States where
  | Forward_Pass
  | Activating
  | Backward_Pass
  | Updating
  deriving DecidableEq, Repr

/-- Function converting the enum for states to the corresponding string. The
`default` branch of the source is unreachable for the four declared values. -/
def enumToString : Neuron_States → String
  | .Forward_Pass => "Forward_Pass"
  | .Activating => "Activating"
  | .Backward_Pass => "Backward_Pass"
  | .Updating => "Updating"

/-- Values of `sigma`: a finite `double` or `numeric_limits<double>::infinity()`. -/
inductive TimeAdvance (α : Type) where
  | finite (t : α)
  | infinity
  deriving DecidableEq, Repr

/-- The struct `NeuronState`. The field `error` is not in the initialiser list of
the source's constructor, so its first content is whatever the caller supplies
as `error0`. -/
structure NeuronState (α : Type) where
  sigma : TimeAdvance α
  ___current_state___ : Neuron_States
  activation_function : String
  loss_function : String
  weighted_sum : α
  prediction : α
  error : α
  inputs_received : Int
  weights : List α
  deriving DecidableEq, Repr

/-- Default constructor `NeuronState()`: sigma(0), Forward_Pass, "sigmoid", "MSE",
no weights, weighted_sum(0), inputs_received(0), prediction(0). -/
def NeuronState.default {α : Type} [Zero α] (error0 : α) : NeuronState α :=
  { sigma := .finite 0
    ___current_state___ := .Forward_Pass
    activation_function := "sigmoid"
    loss_function := "MSE"
    weighted_sum := 0
    prediction := 0
    error := error0
    inputs_received := 0
    weights := [] }

/-- A port (`Port<double>`): the bag of messages it holds, in arrival order. -/
abbrev Port (α : Type) := List α

/-- The class `Neuron`: its ports, its behaviour variables and the `state` it
inherits from `Atomic<NeuronState>`. `inPorts` and `outPorts` are the names
registered with `addInPort` and `addOutPort`. -/
structure Neuron (α : Type) where
  id : String
  inPorts : List String
  outPorts : List String
  forward_inputs : List (Port α)
  backward_inputs : List (Port α)
  forward_output : Port α
  backward_output : Port α
  bias : α
  num_of_inputs : Int
  num_of_outputs : Int
  state : NeuronState α
  deriving DecidableEq, Repr

/-- What a failed `assert` leaves: its message and the object at that point. -/
structure Abort (σ : Type) where
  msg : String
  at_failure : σ
  deriving DecidableEq, Repr

/-- The object a call leaves behind: the one it returns, or the one standing
when an assertion stopped it. -/
def outcome {σ : Type} : Except (Abort σ) σ → σ
  | .ok s => s
  | .error a => a.at_failure

section Code

variable {α : Type} [LinearOrderedField α]

/-- Body of the constructor's first loop, lines 113-116, run for `k` more rounds
from index `i`: add the port `FInput<i>` and push the next random draw. The
`i`-th call of `probDist(generator)` is `probDist i`. -/
def pushForwardInputs (probDist : Nat → α) : Nat → Nat → Neuron α → Neuron α
  | 0, _, m => m
  | k + 1, i, m =>
    pushForwardInputs probDist k (i + 1)
      { m with
        forward_inputs := m.forward_inputs ++ [[]]
        inPorts := m.inPorts ++ ["FInput" ++ toString i]
        state := { m.state with weights := m.state.weights ++ [probDist i] } }

/-- Body of the constructor's second loop, lines 123-125: add the port `BInput<i>`. -/
def pushBackwardInputs : Nat → Nat → Neuron α → Neuron α
  | 0, _, m => m
  | k + 1, i, m =>
    pushBackwardInputs k (i + 1)
      { m with
        backward_inputs := m.backward_inputs ++ [[]]
        inPorts := m.inPorts ++ ["BInput" ++ toString i] }

/-- The object before the constructor body runs: `Atomic<NeuronState>(id, NeuronState())`
and the default member initialisers `bias = 1`, `num_of_inputs = 0`, `num_of_outputs = 0`. -/
def Neuron.base (id : String) (error0 : α) : Neuron α :=
  { id := id
    inPorts := []
    outPorts := []
    forward_inputs := []
    backward_inputs := []
    forward_output := []
    backward_output := []
    bias := 1
    num_of_inputs := 0
    num_of_outputs := 0
    state := NeuronState.default error0 }

set_option linter.unusedVariables false in
/-- The constructor `Neuron::Neuron`, lines 103-141. `probDist` is the stream of
draws of the time-seeded generator, `error0` the uninitialised content of
`state.error`. `weights.back()` is read after a push, so the list is not empty. -/
def Neuron.new (id : String) (num_inputs num_outputs : Int)
    (activation_function_in loss_function_in : String)
    (probDist : Nat → α) (error0 : α) : Except (Abort (Neuron α)) (Neuron α) :=
  let m : Neuron α := Neuron.base id error0
  if num_inputs < 1 then
    .error ⟨"Must have at least 1 input", m⟩
  else
    let m := pushForwardInputs probDist num_inputs.toNat 0 m
    let m := { m with state := { m.state with
                weights := m.state.weights ++ [probDist num_inputs.toNat] } }
    if num_outputs < 0 then
      .error ⟨"Cannot have negative number of outputs", m⟩
    else
      let m := pushBackwardInputs num_outputs.toNat 0 m
      let m := { m with forward_output := [], outPorts := m.outPorts ++ ["FOutput"] }
      let m := { m with backward_output := [], outPorts := m.outPorts ++ ["BOutput"] }
      let m := { m with num_of_inputs := num_inputs, num_of_outputs := num_outputs }
      let s := m.state
      let s := { s with ___current_state___ := .Forward_Pass }
      let s := { s with activation_function := activation_function_in }
      let s := { s with weighted_sum := s.weighted_sum + m.bias * s.weights.getLastD 0 }
      let s := { s with sigma := .infinity }
      .ok { m with state := s }

/-- Inner loop of lines 206-209: `state.weighted_sum += state.weights[i]*x` for
each `x` of the bag, in the order of the bag. The source rounds each product and
each sum to `double`; here they are exact. An index past the end of `weights`
is undefined in the source and reads `0` here; a constructed neuron has one
weight more than it has forward ports. -/
def addWeighted (i : Nat) (bag : Port α) (state : NeuronState α) : NeuronState α :=
  bag.foldl
    (fun st x => { st with weighted_sum := st.weighted_sum + st.weights.getD i 0 * x })
    state

/-- The loop of lines 201-211 over the ports `forward_inputs[i], forward_inputs[i+1], ...`:
a port that is not empty counts once and contributes every value of its bag.
`state.inputs_received++` is `+ 1` on `Int`; the source's `int` overflows at
`2 ^ 31 - 1`. -/
def forwardLoop : List (Port α) → Nat → NeuronState α → NeuronState α
  | [], _, state => state
  | port :: rest, i, state =>
    if !port.isEmpty then
      let state := { state with inputs_received := state.inputs_received + 1 }
      forwardLoop rest (i + 1) (addWeighted i port state)
    else
      forwardLoop rest (i + 1) state

/-- Inner loop of lines 231-233: `state.weighted_sum += x` for each `x` of the bag,
in the order of the bag. The source rounds each sum to `double`; here it is
exact. -/
def addPlain (bag : Port α) (state : NeuronState α) : NeuronState α :=
  bag.foldl (fun st x => { st with weighted_sum := st.weighted_sum + x }) state

/-- The loop of lines 226-235 over the backward ports. `state.inputs_received++` is
`+ 1` on `Int`; the source's `int` overflows at `2 ^ 31 - 1`. -/
def backwardLoop : List (Port α) → NeuronState α → NeuronState α
  | [], state => state
  | port :: rest, state =>
    if !port.isEmpty then
      let state := { state with inputs_received := state.inputs_received + 1 }
      backwardLoop rest (addPlain port state)
    else
      backwardLoop rest state

/-- The function `Neuron::externalTransition`, lines 198-242. The elapsed time `e`
is not read. `abs` is the `double` overload (`using namespace std`). The two
predictions are computed in exact arithmetic here; in the source's `double`
`1/(1+exp(ws))` reaches exactly 0 and 1 and `(ws+|ws|)/2` can overflow. -/
def externalTransition (exp : α → α) (m : Neuron α) (state : NeuronState α) (_e : α) :
    Except (Abort (NeuronState α)) (NeuronState α) :=
  if state.___current_state___ = .Forward_Pass then
    let state := forwardLoop m.forward_inputs 0 state
    if state.inputs_received = (m.forward_inputs.length : Int) then
      let state := { state with ___current_state___ := .Activating }
      if state.activation_function = "sigmoid" then
        let state := { state with prediction := 1 / (1 + exp state.weighted_sum) }
        .ok { state with sigma := .finite 1 }
      else if state.activation_function = "relu" then
        let state := { state with prediction := (state.weighted_sum + |state.weighted_sum|) / 2 }
        .ok { state with sigma := .finite 1 }
      else
        .error ⟨"Not a valid activation function", state⟩
    else
      .ok state
  else if state.___current_state___ = .Backward_Pass then
    let state := backwardLoop m.backward_inputs state
    if state.inputs_received = (m.backward_inputs.length : Int) then
      let state := { state with ___current_state___ := .Updating }
      .ok { state with sigma := .finite 1 }
    else
      .ok state
  else
    .ok state

/-- The function `Neuron::internalTransition`, lines 151-182. The right-hand side of
`state.error =` on line 164 is missing from the source; it is the parameter
`mse_error`, applied to the state at that point. `weights.back()` of an empty
vector is undefined in the source and reads `0` here. The `default` branch is
unreachable for the four declared values, so no assertion can fail. -/
def internalTransition (mse_error : NeuronState α → α) (m : Neuron α)
    (state : NeuronState α) : Except (Abort (NeuronState α)) (NeuronState α) :=
  match state.___current_state___ with
  | .Forward_Pass => .ok state
  | .Activating =>
    let state := { state with ___current_state___ := .Backward_Pass }
    let state := { state with inputs_received := 0 }
    let state := { state with weighted_sum := 0 }
    if m.num_of_outputs > 0 then
      .ok { state with sigma := .infinity }
    else if state.loss_function = "MSE" then
      .ok { state with error := mse_error state }
    else
      .ok state
  | .Backward_Pass => .ok state
  | .Updating =>
    let state := { state with ___current_state___ := .Forward_Pass }
    let state := { state with weighted_sum := state.weighted_sum + m.bias * state.weights.getLastD 0 }
    let state := { state with inputs_received := 0 }
    .ok { state with sigma := .infinity }

/-- The function `Neuron::output`, lines 253-271: `addMessage` appends to the bag of
the output port. -/
def output (m : Neuron α) (state : NeuronState α) : Except (Abort (Neuron α)) (Neuron α) :=
  match state.___current_state___ with
  | .Forward_Pass => .ok m
  | .Activating =>
    if m.num_of_outputs > 0 then
      .ok { m with forward_output := m.forward_output ++ [state.prediction] }
    else
      .ok m
  | .Backward_Pass => .ok m
  | .Updating => .ok { m with backward_output := m.backward_output ++ [state.error] }

/-- The function `Neuron::timeAdvance`, lines 281-283. -/
def timeAdvance (state : NeuronState α) : TimeAdvance α := state.sigma

/-- What arrives in one step: the bag put on each forward port, the bag put on
each backward port, and the elapsed time. -/
structure Delivery (α : Type) where
  fwd : Nat → Port α
  bwd : Nat → Port α
  e : α

/-- The coordinator fills the input ports of `m` with the bags of `d`. -/
def deliver (m : Neuron α) (d : Delivery α) : Neuron α :=
  { m with
    forward_inputs := (List.range m.forward_inputs.length).map d.fwd
    backward_inputs := (List.range m.backward_inputs.length).map d.bwd }

/-- One external event: the ports are filled, then `externalTransition` runs. -/
def extStep (exp : α → α) (m : Neuron α) (state : NeuronState α) (d : Delivery α) :
    Except (Abort (NeuronState α)) (NeuronState α) :=
  externalTransition exp (deliver m d) state d.e

/-- A sequence of external events, stopping at the first failed assertion. -/
def extRun (exp : α → α) (m : Neuron α) :
    NeuronState α → List (Delivery α) → Except (Abort (NeuronState α)) (NeuronState α)
  | state, [] => .ok state
  | state, d :: ds =>
    match extStep exp m state d with
    | .ok state1 => extRun exp m state1 ds
    | .error a => .error a

/-- Everything delivered on forward channel `i` over a sequence of steps, in order. -/
def received : List (Delivery α) → Nat → List α
  | [], _ => []
  | d :: ds, i => d.fwd i ++ received ds i

/-- Number of forward channels among `0, ..., n-1` that delivered at least one
value somewhere in the sequence. -/
def reportedCount (n : Nat) (ds : List (Delivery α)) : Nat :=
  (List.range n).countP (fun i => !(received ds i).isEmpty)

/-- Number of ports whose bag is not empty. -/
def nonEmptyCount (ports : List (Port α)) : Nat :=
  ports.countP (fun p => !p.isEmpty)

/-- Three draws of the random source used in the examples: 1/2, 1/2 and 1/5. -/
def demoDraws : Nat → ℚ := fun i => if i = 2 then 1 / 5 else 1 / 2

/-- A rational stand-in for `exp` in the examples (the first terms of its series). -/
def demoExp : ℚ → ℚ := fun x => 1 + x + x ^ 2 / 2

/-- A constructed neuron with two forward inputs and one backward input. -/
def demoNeuron : Neuron ℚ :=
  outcome (Neuron.new "neuron" 2 1 "sigmoid" "MSE" demoDraws 0)

/-- Two external events: channel 1 delivers first, channel 0 in a later step. -/
def demoSteps : List (Delivery ℚ) :=
  [ ⟨fun i => if i = 1 then [1] else [], fun _ => [], 0⟩,
    ⟨fun i => if i = 0 then [1] else [], fun _ => [], 1⟩ ]

/-- One backward event: the single backward channel delivers the value 3. -/
def demoBackward : Delivery ℚ := ⟨fun _ => [], fun _ => [3], 2⟩

/-- A stand-in for the right-hand side missing on line 164 in the examples. -/
def demoMse : NeuronState ℚ → ℚ := fun _ => 0

/-- A constructed relu neuron with one forward input, weight 1/2 and bias weight 1/5. -/
def demoRelu : Neuron ℚ :=
  outcome (Neuron.new "relu0" 1 0 "relu" "MSE" (fun i => if i = 1 then 1 / 5 else 1 / 2) 0)

/-- Successor of a phase in the cycle Forward_Pass, Activating, Backward_Pass, Updating. -/
def nextPhase : Neuron_States → Neuron_States
  | .Forward_Pass => .Activating
  | .Activating => .Backward_Pass
  | .Backward_Pass => .Updating
  | .Updating => .Forward_Pass

/-- One event of a run: an external event with its delivery, or an internal event. -/
inductive Event (α : Type) where
  | external (d : Delivery α)
  | internal

/-- A state together with the external events that the loops of lines 201-211 and
226-235 have read since `inputs_received` was last set to 0 (at construction,
on line 158 or on line 174). The log is bookkeeping for stating properties; no
transition reads it. -/
structure Traced (α : Type) where
  state : NeuronState α
  log : List (Delivery α)

/-- One event applied to a traced state. An external event is logged when the
phase is `Forward_Pass` or `Backward_Pass` (the other phases do not read the
ports); an internal event from `Activating` or `Updating` resets the counter, so
it empties the log. -/
def step (exp : α → α) (mse_error : NeuronState α → α) (m : Neuron α) (t : Traced α) :
    Event α → Except (Abort (NeuronState α)) (Traced α)
  | .external d =>
    match extStep exp m t.state d with
    | .ok s =>
      .ok ⟨s, if t.state.___current_state___ = .Forward_Pass ∨
                t.state.___current_state___ = .Backward_Pass then t.log ++ [d] else t.log⟩
    | .error a => .error a
  | .internal =>
    match internalTransition mse_error m t.state with
    | .ok s =>
      .ok ⟨s, if t.state.___current_state___ = .Activating ∨
                t.state.___current_state___ = .Updating then [] else t.log⟩
    | .error a => .error a

/-- A sequence of external and internal events, stopping at the first failed
assertion. -/
def run (exp : α → α) (mse_error : NeuronState α → α) (m : Neuron α) :
    Traced α → List (Event α) → Except (Abort (NeuronState α)) (Traced α)
  | t, [] => .ok t
  | t, ev :: evs =>
    match step exp mse_error m t ev with
    | .ok t1 => run exp mse_error m t1 evs
    | .error a => .error a

/-- The bags the phase is concerned with: the forward ones in `Forward_Pass` and
`Activating`, the backward ones in `Backward_Pass` and `Updating`. -/
def activeBags (phase : Neuron_States) (d : Delivery α) : Nat → Port α :=
  match phase with
  | .Forward_Pass => d.fwd
  | .Activating => d.fwd
  | .Backward_Pass => d.bwd
  | .Updating => d.bwd

/-- The number of input channels the phase is concerned with. -/
def activeChannels (m : Neuron α) (phase : Neuron_States) : Nat :=
  match phase with
  | .Forward_Pass => m.forward_inputs.length
  | .Activating => m.forward_inputs.length
  | .Backward_Pass => m.backward_inputs.length
  | .Updating => m.backward_inputs.length

/-- Number of pairs (logged event, channel below `n`) in which the channel
delivered at least one value. -/
def deliveryCount (phase : Neuron_States) (n : Nat) (log : List (Delivery α)) : Nat :=
  (log.map (fun d => (List.range n).countP (fun i => !(activeBags phase d i).isEmpty))).sum

/-- Number of distinct channels below `n` that delivered at least one value in
some logged event. -/
def distinctCount (phase : Neuron_States) (n : Nat) (log : List (Delivery α)) : Nat :=
  (List.range n).countP (fun i => log.any (fun d => !(activeBags phase d i).isEmpty))

/-- No channel below `n` delivered in more than one logged event. -/
def noRepeat (phase : Neuron_States) (n : Nat) (log : List (Delivery α)) : Bool :=
  (List.range n).all
    (fun i => decide (log.countP (fun d => !(activeBags phase d i).isEmpty) ≤ 1))

/-- Forward channel 0 delivers alone, then both forward channels deliver. -/
def demoOvershoot : List (Event ℚ) :=
  [ .external ⟨fun i => if i = 0 then [1] else [], fun _ => [], 0⟩,
    .external ⟨fun _ => [1], fun _ => [], 1⟩ ]

/-- The forward input of `demoRelu`, then its internal event. -/
def demoTerminal : List (Event ℚ) :=
  [ .external ⟨fun _ => [1], fun _ => [], 0⟩, .internal ]

/-- One full cycle of `demoNeuron`: `demoSteps`, an internal event, `demoBackward`,
an internal event. -/
def demoCycle : List (Event ℚ) :=
  demoSteps.map Event.external ++ [.internal, .external demoBackward, .internal]

/-- The events that bring `demoNeuron` to `Updating`: `demoSteps`, an internal
event, and the value `v` on the backward channel. -/
def demoToUpdating (v : ℚ) : List (Event ℚ) :=
  demoSteps.map Event.external ++ [.internal, .external ⟨fun _ => [], fun _ => [v], 2⟩]

end Code

/-! ## Lemmas on the loops -/

section Lemmas

set_option linter.unusedSectionVars false

variable {α : Type} [LinearOrderedField α]

theorem addWeighted_eq (i : Nat) (bag : Port α) (state : NeuronState α) :
    addWeighted i bag state =
      { state with weighted_sum := state.weighted_sum + state.weights.getD i 0 * bag.sum } := by
  unfold addWeighted
  induction bag generalizing state with
  | nil => simp
  | cons x xs ih =>
    rw [List.foldl_cons, ih]
    simp [List.sum_cons, mul_add, add_assoc]

theorem addPlain_eq (bag : Port α) (state : NeuronState α) :
    addPlain bag state = { state with weighted_sum := state.weighted_sum + bag.sum } := by
  unfold addPlain
  induction bag generalizing state with
  | nil => simp
  | cons x xs ih =>
    rw [List.foldl_cons, ih]
    simp [List.sum_cons, add_assoc]

theorem forwardLoop_eq (ports : List (Port α)) (i : Nat) (state : NeuronState α) :
    forwardLoop ports i state =
      { state with
        inputs_received := state.inputs_received + (nonEmptyCount ports : Int)
        weighted_sum := state.weighted_sum +
          ∑ j in Finset.range ports.length,
            state.weights.getD (i + j) 0 * (ports.getD j []).sum } := by
  induction ports generalizing i state with
  | nil => simp [forwardLoop, nonEmptyCount]
  | cons p rest ih =>
    rw [forwardLoop]
    by_cases hp : p.isEmpty = true
    · have hnil : p = [] := List.isEmpty_iff.mp hp
      subst hnil
      simp only [List.isEmpty_nil, Bool.not_true, Bool.false_eq_true, if_false]
      rw [ih]
      simp [nonEmptyCount, Finset.sum_range_succ', add_assoc, add_comm 1]
    · simp only [hp, Bool.not_false, if_true]
      rw [ih, addWeighted_eq]
      simp [nonEmptyCount, hp, Finset.sum_range_succ', add_assoc, add_comm 1]
      constructor
      · ring
      · ring

theorem backwardLoop_eq (ports : List (Port α)) (state : NeuronState α) :
    backwardLoop ports state =
      { state with
        inputs_received := state.inputs_received + (nonEmptyCount ports : Int)
        weighted_sum := state.weighted_sum +
          ∑ j in Finset.range ports.length, (ports.getD j []).sum } := by
  induction ports generalizing state with
  | nil => simp [backwardLoop, nonEmptyCount]
  | cons p rest ih =>
    rw [backwardLoop]
    by_cases hp : p.isEmpty = true
    · have hnil : p = [] := List.isEmpty_iff.mp hp
      subst hnil
      simp only [List.isEmpty_nil, Bool.not_true, Bool.false_eq_true, if_false]
      rw [ih]
      simp [nonEmptyCount, Finset.sum_range_succ', add_assoc, add_comm 1]
    · simp only [hp, Bool.not_false, if_true]
      rw [ih, addPlain_eq]
      simp [nonEmptyCount, hp, Finset.sum_range_succ', add_assoc, add_comm 1]
      constructor
      · ring
      · ring

theorem received_append (pre post : List (Delivery α)) (i : Nat) :
    received (pre ++ post) i = received pre i ++ received post i := by
  induction pre with
  | nil => simp [received]
  | cons d ds ih => simp [received, ih]

theorem extRun_append (exp : α → α) (m : Neuron α) (pre post : List (Delivery α))
    (s0 s1 : NeuronState α) (h : extRun exp m s0 pre = .ok s1) :
    extRun exp m s0 (pre ++ post) = extRun exp m s1 post := by
  induction pre generalizing s0 with
  | nil => simp [extRun] at h; subst h; rfl
  | cons d ds ih =>
    simp only [List.cons_append, extRun] at h ⊢
    cases hstep : extStep exp m s0 d with
    | error a => simp [hstep] at h
    | ok s => simp only [hstep] at h ⊢; exact ih s h

theorem getD_map_range {β : Type} (f : Nat → β) (dflt : β) (n j : Nat) (hj : j < n) :
    ((List.range n).map f).getD j dflt = f j := by
  simp [List.getD, hj]

theorem nonEmptyCount_map_range (f : Nat → Port α) (n : Nat) :
    nonEmptyCount ((List.range n).map f) = (List.range n).countP (fun i => !(f i).isEmpty) := by
  simp [nonEmptyCount, List.countP_map, Function.comp_def]

theorem reportedCount_le (n : Nat) (ds : List (Delivery α)) : reportedCount n ds ≤ n := by
  unfold reportedCount
  exact le_trans (List.countP_le_length _) (by simp)

theorem received_snoc (pre : List (Delivery α)) (d : Delivery α) (i : Nat) :
    received (pre ++ [d]) i = received pre i ++ d.fwd i := by
  rw [received_append]; simp [received]

theorem countP_or_disjoint (p q r : Nat → Bool) (l : List Nat)
    (hdis : ∀ i ∈ l, ¬ (p i = true ∧ q i = true))
    (hr : ∀ i ∈ l, r i = (p i || q i)) :
    l.countP r = l.countP p + l.countP q := by
  induction l with
  | nil => simp
  | cons a t ih =>
    have iht := ih (fun i hi => hdis i (List.mem_cons_of_mem _ hi))
      (fun i hi => hr i (List.mem_cons_of_mem _ hi))
    have ha := hr a (List.mem_cons_self _ _)
    have hd := hdis a (List.mem_cons_self _ _)
    simp only [List.countP_cons, iht, ha]
    cases hp : p a <;> cases hq : q a <;> simp_all <;> omega

theorem reportedCount_snoc (n : Nat) (pre : List (Delivery α)) (d : Delivery α)
    (hone : ∀ i < n, (received (pre ++ [d]) i).length ≤ 1) :
    reportedCount n (pre ++ [d]) =
      reportedCount n pre + (List.range n).countP (fun i => !(d.fwd i).isEmpty) := by
  unfold reportedCount
  apply countP_or_disjoint
  · intro i hi hboth
    have hlen := hone i (List.mem_range.mp hi)
    rw [received_snoc, List.length_append] at hlen
    obtain ⟨h1, h2⟩ := hboth
    have l1 : 0 < (received pre i).length := by
      cases hx : received pre i with
      | nil => simp [hx] at h1
      | cons _ _ => simp
    have l2 : 0 < (d.fwd i).length := by
      cases hx : d.fwd i with
      | nil => simp [hx] at h2
      | cons _ _ => simp
    omega
  · intro i _
    rw [received_snoc]
    cases received pre i <;> cases d.fwd i <;> simp

theorem reportedCount_nil (n : Nat) : reportedCount n ([] : List (Delivery α)) = 0 := by
  simp [reportedCount, received]

/-- One external event in `Forward_Pass`, written out: the loop result `st` and the
gate on `st.inputs_received`. -/
theorem extStep_forward (exp : α → α) (m : Neuron α) (s : NeuronState α) (d : Delivery α)
    (hphase : s.___current_state___ = .Forward_Pass) :
    ∃ st : NeuronState α,
      st = { s with
        inputs_received := s.inputs_received +
          ((List.range m.forward_inputs.length).countP (fun i => !(d.fwd i).isEmpty) : Nat)
        weighted_sum := s.weighted_sum +
          ∑ i in Finset.range m.forward_inputs.length, s.weights.getD i 0 * (d.fwd i).sum } ∧
      (st.inputs_received ≠ (m.forward_inputs.length : Int) → extStep exp m s d = .ok st) ∧
      (st.inputs_received = (m.forward_inputs.length : Int) →
        (s.activation_function = "sigmoid" →
          extStep exp m s d = .ok { st with
            ___current_state___ := .Activating
            prediction := 1 / (1 + exp st.weighted_sum)
            sigma := .finite 1 }) ∧
        (s.activation_function ≠ "sigmoid" → s.activation_function = "relu" →
          extStep exp m s d = .ok { st with
            ___current_state___ := .Activating
            prediction := (st.weighted_sum + |st.weighted_sum|) / 2
            sigma := .finite 1 }) ∧
        (s.activation_function ≠ "sigmoid" → s.activation_function ≠ "relu" →
          extStep exp m s d = .error ⟨"Not a valid activation function",
            { st with ___current_state___ := .Activating }⟩)) := by
  refine ⟨_, rfl, ?_, ?_⟩
  · intro hne
    have hsum : ∑ j in Finset.range m.forward_inputs.length,
        s.weights.getD j 0 * (((List.range m.forward_inputs.length).map d.fwd).getD j []).sum
        = ∑ j in Finset.range m.forward_inputs.length, s.weights.getD j 0 * (d.fwd j).sum := by
      apply Finset.sum_congr rfl
      intro j hj
      rw [getD_map_range _ _ _ _ (Finset.mem_range.mp hj)]
    simp only [extStep, externalTransition, deliver, hphase, if_true, forwardLoop_eq,
      List.length_map, List.length_range, zero_add, nonEmptyCount_map_range, hsum]
    rw [if_neg hne]
  · intro heq
    have hsum : ∑ j in Finset.range m.forward_inputs.length,
        s.weights.getD j 0 * (((List.range m.forward_inputs.length).map d.fwd).getD j []).sum
        = ∑ j in Finset.range m.forward_inputs.length, s.weights.getD j 0 * (d.fwd j).sum := by
      apply Finset.sum_congr rfl
      intro j hj
      rw [getD_map_range _ _ _ _ (Finset.mem_range.mp hj)]
    refine ⟨?_, ?_, ?_⟩
    · intro hs
      simp only [extStep, externalTransition, deliver, hphase, if_true, forwardLoop_eq,
        List.length_map, List.length_range, zero_add, nonEmptyCount_map_range, hsum]
      rw [if_pos heq]
      simp [hs]
    · intro hs hr
      simp only [extStep, externalTransition, deliver, hphase, if_true, forwardLoop_eq,
        List.length_map, List.length_range, zero_add, nonEmptyCount_map_range, hsum]
      rw [if_pos heq]
      simp [hs, hr]
    · intro hs hr
      simp only [extStep, externalTransition, deliver, hphase, if_true, forwardLoop_eq,
        List.length_map, List.length_range, zero_add, nonEmptyCount_map_range, hsum]
      rw [if_pos heq]
      simp [hs, hr]

theorem extStep_idle (exp : α → α) (m : Neuron α) (s : NeuronState α) (d : Delivery α)
    (hphase : s.___current_state___ = .Activating ∨ s.___current_state___ = .Updating) :
    extStep exp m s d = .ok s := by
  rcases hphase with h | h <;> simp [extStep, externalTransition, h]

theorem extRun_append_error (exp : α → α) (m : Neuron α) (pre post : List (Delivery α))
    (s0 : NeuronState α) (a : Abort (NeuronState α)) (h : extRun exp m s0 pre = .error a) :
    extRun exp m s0 (pre ++ post) = .error a := by
  induction pre generalizing s0 with
  | nil => simp [extRun] at h
  | cons d ds ih =>
    simp only [List.cons_append, extRun] at h ⊢
    cases hstep : extStep exp m s0 d with
    | error b => simpa [hstep] using h
    | ok s => simp only [hstep] at h ⊢; exact ih s h

/-- Once a run has reached `Activating`, a further external event changes nothing. -/
theorem extRun_snoc_idle (exp : α → α) (m : Neuron α) (pre : List (Delivery α))
    (d : Delivery α) (s0 : NeuronState α)
    (h : (outcome (extRun exp m s0 pre)).___current_state___ = .Activating) :
    extRun exp m s0 (pre ++ [d]) = extRun exp m s0 pre := by
  cases hr : extRun exp m s0 pre with
  | error a => exact extRun_append_error exp m pre [d] s0 a hr
  | ok s =>
    rw [hr] at h
    rw [extRun_append exp m pre [d] s0 s hr]
    simp only [extRun, extStep_idle exp m s d (Or.inl h)]

/-- The state left by a sequence of forward deliveries in which no channel delivers
more than one value: the counter is the number of channels that have reported, the
weighted sum has gained `weights[i]` times what channel `i` delivered, and the
phase is `Forward_Pass` until all channels have reported and `Activating` from
then on. The run returns unless the completing step met an activation kind that
is neither `"sigmoid"` nor `"relu"`. -/
theorem forward_run (exp : α → α) (m : Neuron α) (s0 : NeuronState α)
    (hn : 1 ≤ m.forward_inputs.length)
    (hphase : s0.___current_state___ = .Forward_Pass)
    (hzero : s0.inputs_received = 0)
    (pre : List (Delivery α))
    (hone : ∀ i < m.forward_inputs.length, (received pre i).length ≤ 1) :
    (outcome (extRun exp m s0 pre)).inputs_received
      = (reportedCount m.forward_inputs.length pre : Int) ∧
    (outcome (extRun exp m s0 pre)).weights = s0.weights ∧
    (outcome (extRun exp m s0 pre)).activation_function = s0.activation_function ∧
    (outcome (extRun exp m s0 pre)).weighted_sum = s0.weighted_sum +
      ∑ i in Finset.range m.forward_inputs.length,
        s0.weights.getD i 0 * (received pre i).sum ∧
    (reportedCount m.forward_inputs.length pre < m.forward_inputs.length →
      (outcome (extRun exp m s0 pre)).___current_state___ = .Forward_Pass ∧
      extRun exp m s0 pre = .ok (outcome (extRun exp m s0 pre))) ∧
    (reportedCount m.forward_inputs.length pre = m.forward_inputs.length →
      (outcome (extRun exp m s0 pre)).___current_state___ = .Activating ∧
      (s0.activation_function = "sigmoid" →
        (outcome (extRun exp m s0 pre)).prediction
          = 1 / (1 + exp (outcome (extRun exp m s0 pre)).weighted_sum) ∧
        extRun exp m s0 pre = .ok (outcome (extRun exp m s0 pre))) ∧
      (s0.activation_function ≠ "sigmoid" → s0.activation_function = "relu" →
        (outcome (extRun exp m s0 pre)).prediction
          = ((outcome (extRun exp m s0 pre)).weighted_sum +
              |(outcome (extRun exp m s0 pre)).weighted_sum|) / 2 ∧
        extRun exp m s0 pre = .ok (outcome (extRun exp m s0 pre)))) := by
  induction pre using List.reverseRecOn with
  | nil =>
    refine ⟨?_, rfl, rfl, ?_, ?_, ?_⟩
    · simp [reportedCount_nil, hzero, extRun, outcome]
    · simp [received, extRun, outcome]
    · intro _; exact ⟨hphase, rfl⟩
    · intro h; rw [reportedCount_nil] at h; omega
  | append_singleton pre d ih =>
    have hpre : ∀ i < m.forward_inputs.length, (received pre i).length ≤ 1 := by
      intro i hi
      have := hone i hi
      rw [received_snoc, List.length_append] at this
      omega
    obtain ⟨hcnt, hw, ha, hws, hfp, hac⟩ := ih hpre
    have hrc := reportedCount_snoc m.forward_inputs.length pre d hone
    have hle := reportedCount_le m.forward_inputs.length pre
    have hle2 := reportedCount_le m.forward_inputs.length (pre ++ [d])
    rcases Nat.lt_or_ge (reportedCount m.forward_inputs.length pre) m.forward_inputs.length
      with hlt | hge
    · -- still in Forward_Pass before this step
      obtain ⟨hph, hok⟩ := hfp hlt
      generalize outcome (extRun exp m s0 pre) = s at hcnt hw ha hws hph hok
      have hstep : extRun exp m s0 (pre ++ [d]) = extStep exp m s d := by
        rw [extRun_append exp m pre [d] s0 s hok]
        simp only [extRun]
        cases extStep exp m s d <;> rfl
      obtain ⟨st, hst, hinc, hcomp⟩ := extStep_forward exp m s d hph
      have hstcnt : st.inputs_received =
          (reportedCount m.forward_inputs.length (pre ++ [d]) : Int) := by
        rw [hst, hrc]; simp [hcnt]
      have hstws : st.weighted_sum = s0.weighted_sum +
          ∑ i in Finset.range m.forward_inputs.length,
            s0.weights.getD i 0 * (received (pre ++ [d]) i).sum := by
        rw [hst]
        simp only [hws, hw, received_snoc, List.sum_append, mul_add, Finset.sum_add_distrib]
        ring
      have hstw : st.weights = s0.weights := by rw [hst]; exact hw
      have hsta : st.activation_function = s0.activation_function := by rw [hst]; exact ha
      by_cases hfull : reportedCount m.forward_inputs.length (pre ++ [d])
          = m.forward_inputs.length
      · have heq : st.inputs_received = (m.forward_inputs.length : Int) := by
          rw [hstcnt, hfull]
        obtain ⟨hsig, hrelu, hbad⟩ := hcomp heq
        by_cases hs : s.activation_function = "sigmoid"
        · rw [hstep, hsig hs]
          refine ⟨by simpa [outcome] using hstcnt, by simpa [outcome] using hstw,
            by simpa [outcome] using hsta, by simpa [outcome] using hstws, ?_, ?_⟩
          · intro h; omega
          · intro _
            refine ⟨rfl, fun _ => ⟨rfl, rfl⟩, fun h => ?_⟩
            exact absurd (ha.symm.trans hs) h
        · by_cases hr : s.activation_function = "relu"
          · rw [hstep, hrelu hs hr]
            refine ⟨by simpa [outcome] using hstcnt, by simpa [outcome] using hstw,
              by simpa [outcome] using hsta, by simpa [outcome] using hstws, ?_, ?_⟩
            · intro h; omega
            · intro _
              refine ⟨rfl, fun h => ?_, fun _ _ => ⟨rfl, rfl⟩⟩
              exact absurd (ha.trans h) hs
          · rw [hstep, hbad hs hr]
            refine ⟨by simpa [outcome] using hstcnt, by simpa [outcome] using hstw,
              by simpa [outcome] using hsta, by simpa [outcome] using hstws, ?_, ?_⟩
            · intro h; omega
            · intro _
              refine ⟨rfl, fun h => ?_, fun _ h => ?_⟩
              · exact absurd (ha.trans h) hs
              · exact absurd (ha.trans h) hr
      · have hneq : st.inputs_received ≠ (m.forward_inputs.length : Int) := by
          rw [hstcnt]; intro h; exact hfull (by exact_mod_cast h)
        rw [hstep, hinc hneq]
        refine ⟨hstcnt, hstw, hsta, hstws, ?_, ?_⟩
        · intro _; exact ⟨by rw [hst]; exact hph, rfl⟩
        · intro h; exact absurd h hfull
    · -- already Activating: the event is ignored and carries no value
      have hfull : reportedCount m.forward_inputs.length pre = m.forward_inputs.length := by
        omega
      obtain ⟨hph, hpred⟩ := hac hfull
      have hzero2 : (List.range m.forward_inputs.length).countP
          (fun i => !(d.fwd i).isEmpty) = 0 := by omega
      have hempty : ∀ i < m.forward_inputs.length, d.fwd i = [] := by
        intro i hi
        rw [List.countP_eq_zero] at hzero2
        have := hzero2 i (List.mem_range.mpr hi)
        simpa using this
      have hfull2 : reportedCount m.forward_inputs.length (pre ++ [d])
          = m.forward_inputs.length := by omega
      rw [extRun_snoc_idle exp m pre d s0 hph]
      refine ⟨?_, hw, ha, ?_, ?_, ?_⟩
      · rw [hcnt, hfull2, hfull]
      · rw [hws]
        congr 1
        apply Finset.sum_congr rfl
        intro i hi
        rw [received_snoc, hempty i (Finset.mem_range.mp hi)]
        simp
      · intro h; omega
      · intro _; exact ⟨hph, hpred⟩

theorem reportedCount_append_le (n : Nat) (pre post : List (Delivery α)) :
    reportedCount n pre ≤ reportedCount n (pre ++ post) := by
  unfold reportedCount
  apply List.countP_mono_left
  intro i _ hi
  rw [received_append]
  cases hx : received pre i with
  | nil => simp [hx] at hi
  | cons _ _ => simp

theorem reportedCount_take_mono (n : Nat) (ds : List (Delivery α)) (k k2 : Nat) (hk : k ≤ k2) :
    reportedCount n (ds.take k) ≤ reportedCount n (ds.take k2) := by
  have h : ds.take k2 = ds.take k ++ (ds.take k2).drop k := by
    have := (List.take_append_drop k (ds.take k2)).symm
    rwa [List.take_take, Nat.min_eq_left hk] at this
  rw [h]
  exact reportedCount_append_le n _ _

theorem received_length_take_le (ds : List (Delivery α)) (k i : Nat) :
    (received (ds.take k) i).length ≤ (received ds i).length := by
  conv_rhs => rw [← List.take_append_drop k ds, received_append, List.length_append]
  omega

theorem reportedCount_full (n : Nat) (ds : List (Delivery α))
    (hone : ∀ i < n, (received ds i).length = 1) : reportedCount n ds = n := by
  unfold reportedCount
  have h : (List.range n).countP (fun i => !(received ds i).isEmpty) = (List.range n).length := by
    rw [List.countP_eq_length]
    intro i hi
    have := hone i (List.mem_range.mp hi)
    cases hx : received ds i with
    | nil => simp [hx] at this
    | cons _ _ => simp
  simpa using h

theorem pushForwardInputs_eq (probDist : Nat → α) (k i : Nat) (m : Neuron α) :
    pushForwardInputs probDist k i m =
      { m with
        forward_inputs := m.forward_inputs ++ List.replicate k []
        inPorts := m.inPorts ++ (List.range' i k).map (fun j => "FInput" ++ toString j)
        state := { m.state with
          weights := m.state.weights ++ (List.range' i k).map probDist } } := by
  induction k generalizing i m with
  | zero => simp [pushForwardInputs]
  | succ k ih =>
    rw [pushForwardInputs, ih]
    simp [List.range'_succ, List.replicate_succ]

theorem pushBackwardInputs_eq (k i : Nat) (m : Neuron α) :
    pushBackwardInputs k i m =
      { m with
        backward_inputs := m.backward_inputs ++ List.replicate k []
        inPorts := m.inPorts ++ (List.range' i k).map (fun j => "BInput" ++ toString j) } := by
  induction k generalizing i m with
  | zero => simp [pushBackwardInputs]
  | succ k ih =>
    rw [pushBackwardInputs, ih]
    simp [List.range'_succ, List.replicate_succ]

/-- The object a successful construction returns, field by field. -/
theorem Neuron.new_ok (id : String) (num_inputs num_outputs : Int)
    (activation_function_in loss_function_in : String) (probDist : Nat → α) (error0 : α)
    (hin : 1 ≤ num_inputs) (hout : 0 ≤ num_outputs) :
    Neuron.new id num_inputs num_outputs activation_function_in loss_function_in
        probDist error0 =
      .ok
        { id := id
          inPorts := (List.range num_inputs.toNat).map (fun j => "FInput" ++ toString j) ++
            (List.range num_outputs.toNat).map (fun j => "BInput" ++ toString j)
          outPorts := ["FOutput", "BOutput"]
          forward_inputs := List.replicate num_inputs.toNat []
          backward_inputs := List.replicate num_outputs.toNat []
          forward_output := []
          backward_output := []
          bias := 1
          num_of_inputs := num_inputs
          num_of_outputs := num_outputs
          state :=
            { sigma := .infinity
              ___current_state___ := .Forward_Pass
              activation_function := activation_function_in
              loss_function := "MSE"
              weighted_sum := probDist num_inputs.toNat
              prediction := 0
              error := error0
              inputs_received := 0
              weights := (List.range (num_inputs.toNat + 1)).map probDist } } := by
  have h1 : ¬ num_inputs < 1 := by omega
  have h2 : ¬ num_outputs < 0 := by omega
  simp [Neuron.new, h1, h2, pushForwardInputs_eq, pushBackwardInputs_eq, Neuron.base,
    NeuronState.default, List.range_eq_range', List.range'_concat]

theorem demoNeuron_eq : demoNeuron =
    { id := "neuron"
      inPorts := ["FInput0", "FInput1", "BInput0"]
      outPorts := ["FOutput", "BOutput"]
      forward_inputs := [[], []]
      backward_inputs := [[]]
      forward_output := []
      backward_output := []
      bias := 1
      num_of_inputs := 2
      num_of_outputs := 1
      state :=
        { sigma := .infinity
          ___current_state___ := .Forward_Pass
          activation_function := "sigmoid"
          loss_function := "MSE"
          weighted_sum := 1 / 5
          prediction := 0
          error := 0
          inputs_received := 0
          weights := [1 / 2, 1 / 2, 1 / 5] } } := by
  have h2 : Int.toNat 2 = 2 := rfl
  have h1 : Int.toNat 1 = 1 := rfl
  rw [demoNeuron, Neuron.new_ok _ _ _ _ _ _ _ (by norm_num) (by norm_num), outcome, h1, h2]
  simp [List.range_succ, demoDraws, List.replicate]
  decide

theorem demoRelu_eq : demoRelu =
    { id := "relu0"
      inPorts := ["FInput0"]
      outPorts := ["FOutput", "BOutput"]
      forward_inputs := [[]]
      backward_inputs := []
      forward_output := []
      backward_output := []
      bias := 1
      num_of_inputs := 1
      num_of_outputs := 0
      state :=
        { sigma := .infinity
          ___current_state___ := .Forward_Pass
          activation_function := "relu"
          loss_function := "MSE"
          weighted_sum := 1 / 5
          prediction := 0
          error := 0
          inputs_received := 0
          weights := [1 / 2, 1 / 5] } } := by
  have h1 : Int.toNat 1 = 1 := rfl
  have h0 : Int.toNat 0 = 0 := rfl
  rw [demoRelu, Neuron.new_ok _ _ _ _ _ _ _ (by norm_num) (by norm_num), outcome, h1, h0]
  simp [List.range_succ, List.replicate]
  decide

/-- Induction along a run: a property that holds at the start and is kept by every
event that returns holds of whatever the run returns. -/
theorem run_induction (exp : α → α) (mse_error : NeuronState α → α) (m : Neuron α)
    (P : Traced α → Prop)
    (hstep : ∀ t ev t1, P t → step exp mse_error m t ev = .ok t1 → P t1)
    (evs : List (Event α)) (t0 t : Traced α) (h0 : P t0)
    (hrun : run exp mse_error m t0 evs = .ok t) : P t := by
  induction evs generalizing t0 with
  | nil => simp [run] at hrun; subst hrun; exact h0
  | cons ev evs ih =>
    simp only [run] at hrun
    cases hs : step exp mse_error m t0 ev with
    | error a => simp [hs] at hrun
    | ok t1 =>
      simp only [hs] at hrun
      exact ih t1 (hstep t0 ev t1 h0 hs) hrun

/-- The external transition never writes `weights`, `error`, `activation_function`
or `loss_function`. -/
theorem externalTransition_frame (exp : α → α) (m : Neuron α) (state : NeuronState α) (e : α) :
    (outcome (externalTransition exp m state e)).weights = state.weights ∧
    (outcome (externalTransition exp m state e)).error = state.error ∧
    (outcome (externalTransition exp m state e)).activation_function
      = state.activation_function ∧
    (outcome (externalTransition exp m state e)).loss_function = state.loss_function := by
  cases hph : state.___current_state___ with
  | Forward_Pass =>
    simp only [externalTransition, hph, if_true]
    split_ifs <;> simp [outcome, forwardLoop_eq]
  | Backward_Pass =>
    simp only [externalTransition, hph]
    split_ifs <;> simp_all [outcome, backwardLoop_eq]
  | Activating => simp [externalTransition, hph, outcome]
  | Updating => simp [externalTransition, hph, outcome]

/-- The internal transition always returns. It never writes `weights`,
`activation_function` or `loss_function`, and it writes `error` only from
`Activating` in a unit whose `num_of_outputs` is not positive. -/
theorem internalTransition_frame (mse_error : NeuronState α → α) (m : Neuron α)
    (state : NeuronState α) :
    ∃ s, internalTransition mse_error m state = .ok s ∧
      s.weights = state.weights ∧
      s.activation_function = state.activation_function ∧
      s.loss_function = state.loss_function ∧
      (m.num_of_outputs > 0 → s.error = state.error) := by
  cases hph : state.___current_state___ with
  | Forward_Pass => exact ⟨state, by simp [internalTransition, hph], rfl, rfl, rfl, fun _ => rfl⟩
  | Backward_Pass => exact ⟨state, by simp [internalTransition, hph], rfl, rfl, rfl, fun _ => rfl⟩
  | Activating =>
    simp only [internalTransition, hph]
    split_ifs with h1 h2 <;> simp [h1]
  | Updating => simp [internalTransition, hph]

/-- What one event that returns keeps of the state. -/
theorem step_frame (exp : α → α) (mse_error : NeuronState α → α) (m : Neuron α)
    (t t1 : Traced α) (ev : Event α) (h : step exp mse_error m t ev = .ok t1) :
    t1.state.weights = t.state.weights ∧
    t1.state.activation_function = t.state.activation_function ∧
    t1.state.loss_function = t.state.loss_function ∧
    (m.num_of_outputs > 0 → t1.state.error = t.state.error) := by
  cases ev with
  | external d =>
    have hf := externalTransition_frame exp (deliver m d) t.state d.e
    simp only [step, extStep] at h
    cases hx : externalTransition exp (deliver m d) t.state d.e with
    | error a => simp [hx] at h
    | ok s =>
      simp only [hx, Except.ok.injEq] at h
      rw [hx] at hf
      subst h
      exact ⟨hf.1, hf.2.2.1, hf.2.2.2, fun _ => hf.2.1⟩
  | internal =>
    obtain ⟨s, hs, h1, h2, h3, h4⟩ := internalTransition_frame mse_error m t.state
    simp only [step, hs, Except.ok.injEq] at h
    subst h
    exact ⟨h1, h2, h3, h4⟩

/-- With activation kind `"sigmoid"` or `"relu"` the external transition returns. -/
theorem externalTransition_returns (exp : α → α) (m : Neuron α) (state : NeuronState α) (e : α)
    (hact : state.activation_function = "sigmoid" ∨ state.activation_function = "relu") :
    ∃ s, externalTransition exp m state e = .ok s := by
  cases hph : state.___current_state___ with
  | Forward_Pass =>
    simp only [externalTransition, hph, if_true]
    rcases hact with h | h <;> split_ifs <;> simp_all [forwardLoop_eq]
  | Backward_Pass =>
    simp only [externalTransition, hph]
    split_ifs <;> simp_all
  | Activating => simp [externalTransition, hph]
  | Updating => simp [externalTransition, hph]

/-- With activation kind `"sigmoid"` or `"relu"` every run returns. -/
theorem run_returns (exp : α → α) (mse_error : NeuronState α → α) (m : Neuron α)
    (evs : List (Event α)) (t0 : Traced α)
    (hact : t0.state.activation_function = "sigmoid" ∨ t0.state.activation_function = "relu") :
    ∃ t, run exp mse_error m t0 evs = .ok t := by
  induction evs generalizing t0 with
  | nil => exact ⟨t0, rfl⟩
  | cons ev evs ih =>
    have hstep : ∃ t1, step exp mse_error m t0 ev = .ok t1 := by
      cases ev with
      | external d =>
        obtain ⟨s, hs⟩ := externalTransition_returns exp (deliver m d) t0.state d.e hact
        exact ⟨_, by simp only [step, extStep, hs]; rfl⟩
      | internal =>
        obtain ⟨s, hs, _⟩ := internalTransition_frame mse_error m t0.state
        exact ⟨_, by simp only [step, hs]; rfl⟩
    obtain ⟨t1, h1⟩ := hstep
    have hkeep := (step_frame exp mse_error m t0 t1 ev h1).2.1
    obtain ⟨t, ht⟩ := ih t1 (by rw [hkeep]; exact hact)
    exact ⟨t, by simp only [run, h1, ht]⟩

/-- What a successful construction returns, as facts about the returned object. -/
theorem Neuron.new_spec (id : String) (num_inputs num_outputs : Int)
    (activation_function_in loss_function_in : String) (probDist : Nat → α) (error0 : α)
    (hin : 1 ≤ num_inputs) (hout : 0 ≤ num_outputs) :
    ∃ m, Neuron.new id num_inputs num_outputs activation_function_in loss_function_in
        probDist error0 = .ok m ∧
      m.num_of_inputs = num_inputs ∧
      m.num_of_outputs = num_outputs ∧
      m.bias = 1 ∧
      m.forward_inputs.length = num_inputs.toNat ∧
      m.backward_inputs.length = num_outputs.toNat ∧
      m.forward_output = [] ∧
      m.backward_output = [] ∧
      m.state =
        { sigma := .infinity
          ___current_state___ := .Forward_Pass
          activation_function := activation_function_in
          loss_function := "MSE"
          weighted_sum := probDist num_inputs.toNat
          prediction := 0
          error := error0
          inputs_received := 0
          weights := (List.range (num_inputs.toNat + 1)).map probDist } :=
  ⟨_, Neuron.new_ok id num_inputs num_outputs activation_function_in loss_function_in
    probDist error0 hin hout, rfl, rfl, rfl, by simp, by simp, rfl, rfl, rfl⟩

/-- In `Backward_Pass` the values delivered reach `weighted_sum` only: two
deliveries on which the same backward channels deliver return states that agree
on every other field. -/
theorem backward_values_reach_weighted_sum_only (exp : α → α) (m : Neuron α)
    (state : NeuronState α) (d1 d2 : Delivery α)
    (hph : state.___current_state___ = .Backward_Pass)
    (hsame : ∀ j < m.backward_inputs.length, (d1.bwd j).isEmpty = (d2.bwd j).isEmpty) :
    ∃ s1 s2, extStep exp m state d1 = .ok s1 ∧ extStep exp m state d2 = .ok s2 ∧
      s2 = { s1 with weighted_sum := s2.weighted_sum } := by
  have hcount : nonEmptyCount ((List.range m.backward_inputs.length).map d1.bwd)
      = nonEmptyCount ((List.range m.backward_inputs.length).map d2.bwd) := by
    rw [nonEmptyCount_map_range, nonEmptyCount_map_range]
    apply List.countP_congr
    intro j hj
    rw [hsame j (List.mem_range.mp hj)]
  have h1 := backwardLoop_eq ((List.range m.backward_inputs.length).map d1.bwd) state
  have h2 := backwardLoop_eq ((List.range m.backward_inputs.length).map d2.bwd) state
  rw [hcount] at h1
  by_cases hfull : state.inputs_received +
      (nonEmptyCount ((List.range m.backward_inputs.length).map d2.bwd) : Int)
      = (m.backward_inputs.length : Int)
  · refine ⟨{ backwardLoop ((List.range m.backward_inputs.length).map d1.bwd) state with
        ___current_state___ := .Updating, sigma := .finite 1 },
      { backwardLoop ((List.range m.backward_inputs.length).map d2.bwd) state with
        ___current_state___ := .Updating, sigma := .finite 1 }, ?_, ?_, ?_⟩
    · simp [extStep, externalTransition, deliver, hph, h1, hfull]
    · simp [extStep, externalTransition, deliver, hph, h2, hfull]
    · simp [h1, h2]
  · refine ⟨backwardLoop ((List.range m.backward_inputs.length).map d1.bwd) state,
      backwardLoop ((List.range m.backward_inputs.length).map d2.bwd) state, ?_, ?_, ?_⟩
    · simp [extStep, externalTransition, deliver, hph, h1, hfull]
    · simp [extStep, externalTransition, deliver, hph, h2, hfull]
    · simp [h1, h2]

/-- In a unit with `num_of_outputs > 0` every state a run returns has the `error`
the run started with. -/
theorem run_keeps_error (exp : α → α) (mse_error : NeuronState α → α) (m : Neuron α)
    (hpos : m.num_of_outputs > 0) (evs : List (Event α)) (t0 t : Traced α)
    (hrun : run exp mse_error m t0 evs = .ok t) : t.state.error = t0.state.error :=
  run_induction exp mse_error m (fun t => t.state.error = t0.state.error)
    (fun t ev t1 ht hs => by
      have := (step_frame exp mse_error m t t1 ev hs).2.2.2 hpos
      simpa [this] using ht)
    evs t0 t rfl hrun

/-- Every state a run returns has the weights and the activation kind the run
started with. -/
theorem run_keeps_weights (exp : α → α) (mse_error : NeuronState α → α) (m : Neuron α)
    (evs : List (Event α)) (t0 t : Traced α)
    (hrun : run exp mse_error m t0 evs = .ok t) :
    t.state.weights = t0.state.weights ∧
    t.state.activation_function = t0.state.activation_function :=
  run_induction exp mse_error m
    (fun t => t.state.weights = t0.state.weights ∧
      t.state.activation_function = t0.state.activation_function)
    (fun t ev t1 ht hs => by
      have h := step_frame exp mse_error m t t1 ev hs
      exact ⟨h.1.trans ht.1, h.2.1.trans ht.2⟩)
    evs t0 t ⟨rfl, rfl⟩ hrun

/-- One external event in `Backward_Pass`, written out: the loop result `st` and
the gate on `st.inputs_received`. -/
theorem extStep_backward (exp : α → α) (m : Neuron α) (s : NeuronState α) (d : Delivery α)
    (hphase : s.___current_state___ = .Backward_Pass) :
    ∃ st : NeuronState α,
      st = { s with
        inputs_received := s.inputs_received +
          ((List.range m.backward_inputs.length).countP (fun i => !(d.bwd i).isEmpty) : Nat)
        weighted_sum := s.weighted_sum +
          ∑ i in Finset.range m.backward_inputs.length, (d.bwd i).sum } ∧
      (st.inputs_received ≠ (m.backward_inputs.length : Int) → extStep exp m s d = .ok st) ∧
      (st.inputs_received = (m.backward_inputs.length : Int) →
        extStep exp m s d = .ok { st with
          ___current_state___ := .Updating
          sigma := .finite 1 }) := by
  have hsum : ∑ j in Finset.range m.backward_inputs.length,
      (((List.range m.backward_inputs.length).map d.bwd).getD j []).sum
      = ∑ j in Finset.range m.backward_inputs.length, (d.bwd j).sum := by
    apply Finset.sum_congr rfl
    intro j hj
    rw [getD_map_range _ _ _ _ (Finset.mem_range.mp hj)]
  have hloop := backwardLoop_eq ((List.range m.backward_inputs.length).map d.bwd) s
  simp only [List.length_map, List.length_range, nonEmptyCount_map_range, hsum] at hloop
  refine ⟨_, rfl, ?_, ?_⟩
  · intro hne
    simp [extStep, externalTransition, deliver, hphase, hloop]
    intro h
    exact absurd h hne
  · intro heq
    simp [extStep, externalTransition, deliver, hphase, hloop]
    exact heq

/-- Phase and `sigma` after an external event that returns: both as before, or the
phase moved from `Forward_Pass` to `Activating` or from `Backward_Pass` to
`Updating` and `sigma` is 1. -/
theorem extStep_phase_sigma (exp : α → α) (m : Neuron α) (s s1 : NeuronState α)
    (d : Delivery α) (h : extStep exp m s d = .ok s1) :
    (s1.___current_state___ = s.___current_state___ ∧ s1.sigma = s.sigma) ∨
    (((s.___current_state___ = .Forward_Pass ∧ s1.___current_state___ = .Activating) ∨
      (s.___current_state___ = .Backward_Pass ∧ s1.___current_state___ = .Updating)) ∧
      s1.sigma = .finite 1) := by
  cases hph : s.___current_state___ with
  | Forward_Pass =>
    obtain ⟨st, hst, hinc, hcomp⟩ := extStep_forward exp m s d hph
    by_cases hfull : st.inputs_received = (m.forward_inputs.length : Int)
    · obtain ⟨hsig, hrelu, hbad⟩ := hcomp hfull
      by_cases hs : s.activation_function = "sigmoid"
      · rw [hsig hs] at h
        cases h
        exact Or.inr ⟨Or.inl ⟨rfl, rfl⟩, rfl⟩
      · by_cases hr : s.activation_function = "relu"
        · rw [hrelu hs hr] at h
          cases h
          exact Or.inr ⟨Or.inl ⟨rfl, rfl⟩, rfl⟩
        · rw [hbad hs hr] at h
          cases h
    · rw [hinc hfull] at h
      cases h
      rw [hst]
      exact Or.inl ⟨hph, rfl⟩
  | Backward_Pass =>
    obtain ⟨st, hst, hinc, hcomp⟩ := extStep_backward exp m s d hph
    by_cases hfull : st.inputs_received = (m.backward_inputs.length : Int)
    · rw [hcomp hfull] at h
      cases h
      exact Or.inr ⟨Or.inr ⟨rfl, rfl⟩, rfl⟩
    · rw [hinc hfull] at h
      cases h
      rw [hst]
      exact Or.inl ⟨hph, rfl⟩
  | Activating =>
    rw [extStep_idle exp m s d (Or.inl hph)] at h
    cases h
    exact Or.inl ⟨hph, rfl⟩
  | Updating =>
    rw [extStep_idle exp m s d (Or.inr hph)] at h
    cases h
    exact Or.inl ⟨hph, rfl⟩

/-- Phase and `sigma` after an internal event. -/
theorem internalTransition_phase_sigma (mse_error : NeuronState α → α) (m : Neuron α)
    (s s1 : NeuronState α) (h : internalTransition mse_error m s = .ok s1) :
    ((s.___current_state___ = .Forward_Pass ∨ s.___current_state___ = .Backward_Pass) ∧
      s1 = s) ∨
    (s.___current_state___ = .Activating ∧ s1.___current_state___ = .Backward_Pass ∧
      s1.inputs_received = 0 ∧
      (m.num_of_outputs > 0 → s1.sigma = .infinity) ∧
      (¬ m.num_of_outputs > 0 → s1.sigma = s.sigma)) ∨
    (s.___current_state___ = .Updating ∧ s1.___current_state___ = .Forward_Pass ∧
      s1.inputs_received = 0 ∧ s1.sigma = .infinity) := by
  cases hph : s.___current_state___ with
  | Forward_Pass =>
    simp only [internalTransition, hph, Except.ok.injEq] at h
    exact Or.inl ⟨Or.inl rfl, h.symm⟩
  | Backward_Pass =>
    simp only [internalTransition, hph, Except.ok.injEq] at h
    exact Or.inl ⟨Or.inr rfl, h.symm⟩
  | Activating =>
    simp only [internalTransition, hph] at h
    split_ifs at h with h1 h2 <;> cases h <;> simp [h1]
  | Updating =>
    simp only [internalTransition, hph, Except.ok.injEq] at h
    subst h
    simp

/-- The two parts of an event that returns. -/
theorem step_ok_cases (exp : α → α) (mse_error : NeuronState α → α) (m : Neuron α)
    (t t1 : Traced α) (ev : Event α) (h : step exp mse_error m t ev = .ok t1) :
    (∃ d, ev = .external d ∧ extStep exp m t.state d = .ok t1.state ∧
      t1.log = (if t.state.___current_state___ = .Forward_Pass ∨
        t.state.___current_state___ = .Backward_Pass then t.log ++ [d] else t.log)) ∨
    (ev = .internal ∧ internalTransition mse_error m t.state = .ok t1.state ∧
      t1.log = (if t.state.___current_state___ = .Activating ∨
        t.state.___current_state___ = .Updating then [] else t.log)) := by
  cases ev with
  | external d =>
    left
    simp only [step] at h
    cases hx : extStep exp m t.state d with
    | error a => simp [hx] at h
    | ok s =>
      simp only [hx, Except.ok.injEq] at h
      subst h
      exact ⟨d, rfl, hx, rfl⟩
  | internal =>
    right
    simp only [step] at h
    cases hx : internalTransition mse_error m t.state with
    | error a => simp [hx] at h
    | ok s =>
      simp only [hx, Except.ok.injEq] at h
      subst h
      exact ⟨rfl, rfl, rfl⟩

/-- A run that starts idle in `Forward_Pass` returns only states whose `sigma` is
infinite in `Forward_Pass` and 1 in `Activating` and `Updating`; in a unit with
`num_of_outputs > 0` it is infinite in `Backward_Pass` as well. -/
theorem run_sigma_by_phase (exp : α → α) (mse_error : NeuronState α → α) (m : Neuron α)
    (evs : List (Event α)) (t0 t : Traced α)
    (h0 : t0.state.___current_state___ = .Forward_Pass) (hs0 : t0.state.sigma = .infinity)
    (hrun : run exp mse_error m t0 evs = .ok t) :
    (t.state.___current_state___ = .Forward_Pass → t.state.sigma = .infinity) ∧
    ((t.state.___current_state___ = .Activating ∨
        t.state.___current_state___ = .Updating) → t.state.sigma = .finite 1) ∧
    (m.num_of_outputs > 0 → t.state.___current_state___ = .Backward_Pass →
      t.state.sigma = .infinity) := by
  refine run_induction exp mse_error m
    (fun t =>
      (t.state.___current_state___ = .Forward_Pass → t.state.sigma = .infinity) ∧
      ((t.state.___current_state___ = .Activating ∨
          t.state.___current_state___ = .Updating) → t.state.sigma = .finite 1) ∧
      (m.num_of_outputs > 0 → t.state.___current_state___ = .Backward_Pass →
        t.state.sigma = .infinity))
    ?_ evs t0 t
    ⟨fun _ => hs0, fun h => by rcases h with h | h <;> simp [h0] at h,
      fun _ h => by simp [h0] at h⟩ hrun
  intro t ev t1 ⟨hfwd, hbusy, hbwd⟩ hstep
  rcases step_ok_cases exp mse_error m t t1 ev hstep with ⟨d, _, hx, _⟩ | ⟨_, hx, _⟩
  · rcases extStep_phase_sigma exp m t.state t1.state d hx with ⟨hp, hs⟩ | ⟨hp, hs⟩
    · rw [hp, hs]; exact ⟨hfwd, hbusy, hbwd⟩
    · refine ⟨fun h => ?_, fun _ => hs, fun _ h => ?_⟩
      · rcases hp with ⟨_, hp⟩ | ⟨_, hp⟩ <;> simp [hp] at h
      · rcases hp with ⟨_, hp⟩ | ⟨_, hp⟩ <;> simp [hp] at h
  · rcases internalTransition_phase_sigma mse_error m t.state t1.state hx with
      ⟨_, he⟩ | ⟨_, hp, _, hs, _⟩ | ⟨_, hp, _, hs⟩
    · rw [he]; exact ⟨hfwd, hbusy, hbwd⟩
    · exact ⟨fun h => by simp [hp] at h, fun h => by rcases h with h | h <;> simp [hp] at h,
        fun hpos _ => hs hpos⟩
    · exact ⟨fun _ => hs, fun h => by rcases h with h | h <;> simp [hp] at h,
        fun _ h => by simp [hp] at h⟩

/-- In a unit whose activation kind is neither `"sigmoid"` nor `"relu"`, a run that
starts in `Forward_Pass` returns only states in `Forward_Pass` with the
`prediction` it started with. -/
theorem run_stays_forward (exp : α → α) (mse_error : NeuronState α → α) (m : Neuron α)
    (evs : List (Event α)) (t0 t : Traced α)
    (h0 : t0.state.___current_state___ = .Forward_Pass)
    (hs : t0.state.activation_function ≠ "sigmoid")
    (hr : t0.state.activation_function ≠ "relu")
    (hrun : run exp mse_error m t0 evs = .ok t) :
    t.state.___current_state___ = .Forward_Pass ∧
    t.state.prediction = t0.state.prediction ∧
    t.state.activation_function = t0.state.activation_function := by
  refine run_induction exp mse_error m
    (fun t => t.state.___current_state___ = .Forward_Pass ∧
      t.state.prediction = t0.state.prediction ∧
      t.state.activation_function = t0.state.activation_function)
    ?_ evs t0 t ⟨h0, rfl, rfl⟩ hrun
  intro t ev t1 ⟨hph, hpred, hact⟩ hstep
  rcases step_ok_cases exp mse_error m t t1 ev hstep with ⟨d, _, hx, _⟩ | ⟨_, hx, _⟩
  · obtain ⟨st, hst, hinc, hcomp⟩ := extStep_forward exp m t.state d hph
    by_cases hfull : st.inputs_received = (m.forward_inputs.length : Int)
    · rw [(hcomp hfull).2.2 (by rw [hact]; exact hs) (by rw [hact]; exact hr)] at hx
      cases hx
    · rw [hinc hfull] at hx
      cases hx
      rw [hst]
      exact ⟨hph, hpred, hact⟩
  · simp only [internalTransition, hph, Except.ok.injEq] at hx
    rw [← hx]
    exact ⟨hph, hpred, hact⟩

theorem deliveryCount_nil (phase : Neuron_States) (n : Nat) :
    deliveryCount phase n ([] : List (Delivery α)) = 0 := by
  simp [deliveryCount]

theorem deliveryCount_snoc (phase : Neuron_States) (n : Nat) (log : List (Delivery α))
    (d : Delivery α) :
    deliveryCount phase n (log ++ [d]) =
      deliveryCount phase n log +
        (List.range n).countP (fun i => !(activeBags phase d i).isEmpty) := by
  simp [deliveryCount, List.map_append, List.sum_append]

/-- The counter along a run that starts at a reset in `Forward_Pass`: it is the
number of pairs (logged event, channel of the phase) with a delivery, it equals
the number of forward ports in `Activating` and the number of backward ports in
`Updating`. -/
theorem run_counts (exp : α → α) (mse_error : NeuronState α → α) (m : Neuron α)
    (evs : List (Event α)) (s0 : NeuronState α) (t : Traced α)
    (h0 : s0.___current_state___ = .Forward_Pass) (hz : s0.inputs_received = 0)
    (hrun : run exp mse_error m ⟨s0, []⟩ evs = .ok t) :
    t.state.inputs_received =
      (deliveryCount t.state.___current_state___
        (activeChannels m t.state.___current_state___) t.log : Int) ∧
    (t.state.___current_state___ = .Activating →
      t.state.inputs_received = (m.forward_inputs.length : Int)) ∧
    (t.state.___current_state___ = .Updating →
      t.state.inputs_received = (m.backward_inputs.length : Int)) := by
  refine run_induction exp mse_error m
    (fun t =>
      t.state.inputs_received =
        (deliveryCount t.state.___current_state___
          (activeChannels m t.state.___current_state___) t.log : Int) ∧
      (t.state.___current_state___ = .Activating →
        t.state.inputs_received = (m.forward_inputs.length : Int)) ∧
      (t.state.___current_state___ = .Updating →
        t.state.inputs_received = (m.backward_inputs.length : Int)))
    ?_ evs ⟨s0, []⟩ t ⟨by simp [hz, deliveryCount_nil], by simp [h0], by simp [h0]⟩ hrun
  intro t ev t1 ⟨hJ, hA, hU⟩ hstep
  obtain ⟨s1, log1⟩ := t1
  rcases step_ok_cases exp mse_error m t _ ev hstep with ⟨d, _, hx, hlog⟩ | ⟨_, hx, hlog⟩
  · simp only at hx hlog
    cases hph : t.state.___current_state___ with
    | Forward_Pass =>
      rw [hph] at hJ
      simp only [hph, true_or, if_true] at hlog
      obtain ⟨st, hst, hinc, hcomp⟩ := extStep_forward exp m t.state d hph
      have hcnt : st.inputs_received =
          (deliveryCount .Forward_Pass m.forward_inputs.length (t.log ++ [d]) : Int) := by
        rw [hst, deliveryCount_snoc]
        simp [hJ, activeChannels, activeBags]
      by_cases hfull : st.inputs_received = (m.forward_inputs.length : Int)
      · obtain ⟨hsig, hrelu, hbad⟩ := hcomp hfull
        by_cases hs : t.state.activation_function = "sigmoid"
        · rw [hsig hs] at hx
          have h := Except.ok.inj hx
          subst h
          subst hlog
          exact ⟨hcnt, fun _ => hfull, fun h => by simp at h⟩
        · by_cases hr : t.state.activation_function = "relu"
          · rw [hrelu hs hr] at hx
            have h := Except.ok.inj hx
            subst h
            subst hlog
            exact ⟨hcnt, fun _ => hfull, fun h => by simp at h⟩
          · rw [hbad hs hr] at hx
            cases hx
      · rw [hinc hfull] at hx
        have h := Except.ok.inj hx
        subst h
        subst hlog
        have hp : st.___current_state___ = .Forward_Pass := by rw [hst]; exact hph
        simp only [hp]
        exact ⟨hcnt, fun h => by simp at h, fun h => by simp at h⟩
    | Backward_Pass =>
      rw [hph] at hJ
      simp only [hph, or_true, if_true] at hlog
      obtain ⟨st, hst, hinc, hcomp⟩ := extStep_backward exp m t.state d hph
      have hcnt : st.inputs_received =
          (deliveryCount .Backward_Pass m.backward_inputs.length (t.log ++ [d]) : Int) := by
        rw [hst, deliveryCount_snoc]
        simp [hJ, activeChannels, activeBags]
      by_cases hfull : st.inputs_received = (m.backward_inputs.length : Int)
      · rw [hcomp hfull] at hx
        have h := Except.ok.inj hx
        subst h
        subst hlog
        exact ⟨hcnt, fun h => by simp at h, fun _ => hfull⟩
      · rw [hinc hfull] at hx
        have h := Except.ok.inj hx
        subst h
        subst hlog
        have hp : st.___current_state___ = .Backward_Pass := by rw [hst]; exact hph
        simp only [hp]
        exact ⟨hcnt, fun h => by simp at h, fun h => by simp at h⟩
    | Activating =>
      rw [extStep_idle exp m t.state d (Or.inl hph)] at hx
      have h := Except.ok.inj hx
      subst h
      simp [hph] at hlog
      subst hlog
      exact ⟨hJ, hA, hU⟩
    | Updating =>
      rw [extStep_idle exp m t.state d (Or.inr hph)] at hx
      have h := Except.ok.inj hx
      subst h
      simp [hph] at hlog
      subst hlog
      exact ⟨hJ, hA, hU⟩
  · simp only at hx hlog
    rcases internalTransition_phase_sigma mse_error m t.state s1 hx with
      ⟨hp, he⟩ | ⟨hp0, hp, hz1, _⟩ | ⟨hp0, hp, hz1, _⟩
    · subst he
      have hl : log1 = t.log := by
        rcases hp with hp | hp <;> simp [hp] at hlog <;> exact hlog
      subst hl
      exact ⟨hJ, hA, hU⟩
    · simp [hp0] at hlog
      subst hlog
      simp [hp, hz1, deliveryCount_nil]
    · simp [hp0] at hlog
      subst hlog
      simp [hp, hz1, deliveryCount_nil]

theorem distinctCount_le (phase : Neuron_States) (n : Nat) (log : List (Delivery α)) :
    distinctCount phase n log ≤ n := by
  unfold distinctCount
  exact le_trans (List.countP_le_length _) (by simp)


theorem noRepeat_iff (phase : Neuron_States) (n : Nat) (log : List (Delivery α)) :
    noRepeat phase n log = true ↔
      ∀ i < n, log.countP (fun d => !(activeBags phase d i).isEmpty) ≤ 1 := by
  simp [noRepeat, List.all_eq_true]

/-- When no channel delivers in more than one logged event, counting deliveries
and counting distinct channels give the same number. -/
theorem deliveryCount_eq_distinctCount (phase : Neuron_States) (n : Nat)
    (log : List (Delivery α)) (h : noRepeat phase n log = true) :
    deliveryCount phase n log = distinctCount phase n log := by
  rw [noRepeat_iff] at h
  induction log with
  | nil => simp [deliveryCount, distinctCount]
  | cons d log ih =>
    have hrest : ∀ i < n, log.countP (fun d => !(activeBags phase d i).isEmpty) ≤ 1 := by
      intro i hi
      have := h i hi
      rw [List.countP_cons] at this
      omega
    have hsplit : distinctCount phase n (d :: log) =
        (List.range n).countP (fun i => !(activeBags phase d i).isEmpty) +
          distinctCount phase n log := by
      unfold distinctCount
      apply countP_or_disjoint
      · intro i hi hboth
        have hle := h i (List.mem_range.mp hi)
        obtain ⟨h1, h2⟩ := hboth
        have hpos : 0 < log.countP (fun d => !(activeBags phase d i).isEmpty) := by
          rw [List.countP_pos_iff]
          simpa [List.any_eq_true] using h2
        rw [List.countP_cons, if_pos h1] at hle
        omega
      · intro i _
        simp [List.any_cons]
    rw [hsplit, ← ih hrest]
    simp [deliveryCount]

end Lemmas

/-! ## The claims -/

section Claims

set_option linter.unusedSectionVars false

variable {α : Type} [LinearOrderedField α]

/-- C1. A neuron with `n ≥ 1` forward ports starts in `Forward_Pass` with
`inputs_received = 0`, and the steps `ds` deliver in total exactly one value on
each forward channel. Then there is one step `k0` before which some channel has
not reported and with which all have. After every `k ≤ k0` steps the run has
returned in `Forward_Pass` with fewer than `n` inputs counted; after every
`k > k0` steps the phase is `Activating` with `inputs_received = n`, and the run
has returned when the activation kind is `"sigmoid"` or `"relu"` (for another
kind the state is the one standing at the failed assertion of step `k0`). -/
theorem forward_gate_fires_once (exp : α → α) (m : Neuron α) (s0 : NeuronState α)
    (ds : List (Delivery α))
    (hn : 1 ≤ m.forward_inputs.length)
    (hphase : s0.___current_state___ = .Forward_Pass)
    (hzero : s0.inputs_received = 0)
    (hone : ∀ i < m.forward_inputs.length, (received ds i).length = 1) :
    ∃ k0, k0 < ds.length ∧
      reportedCount m.forward_inputs.length (ds.take k0) < m.forward_inputs.length ∧
      reportedCount m.forward_inputs.length (ds.take (k0 + 1)) = m.forward_inputs.length ∧
      ∀ k,
        (k ≤ k0 →
          extRun exp m s0 (ds.take k) = .ok (outcome (extRun exp m s0 (ds.take k))) ∧
          (outcome (extRun exp m s0 (ds.take k))).___current_state___ = .Forward_Pass ∧
          (outcome (extRun exp m s0 (ds.take k))).inputs_received
            < (m.forward_inputs.length : Int)) ∧
        (k0 < k →
          (outcome (extRun exp m s0 (ds.take k))).___current_state___ = .Activating ∧
          (outcome (extRun exp m s0 (ds.take k))).inputs_received
            = (m.forward_inputs.length : Int) ∧
          (s0.activation_function = "sigmoid" ∨ s0.activation_function = "relu" →
            extRun exp m s0 (ds.take k) = .ok (outcome (extRun exp m s0 (ds.take k))))) := by
  have hex : ∃ k, reportedCount m.forward_inputs.length (ds.take (k + 1))
      = m.forward_inputs.length :=
    ⟨ds.length, by
      rw [List.take_of_length_le (Nat.le_succ _)]
      exact reportedCount_full _ ds hone⟩
  classical
  let k0 := Nat.find hex
  have hk0 : reportedCount m.forward_inputs.length (ds.take (k0 + 1))
      = m.forward_inputs.length := Nat.find_spec hex
  have hbefore : reportedCount m.forward_inputs.length (ds.take k0)
      < m.forward_inputs.length := by
    rcases Nat.eq_zero_or_pos k0 with h0 | hpos
    · rw [h0, List.take_zero, reportedCount_nil]; omega
    · have hmin := Nat.find_min hex (m := k0 - 1) (by omega)
      have hle := reportedCount_le m.forward_inputs.length (ds.take k0)
      have hk : k0 - 1 + 1 = k0 := by omega
      rw [hk] at hmin
      omega
  refine ⟨k0, ?_, hbefore, hk0, ?_⟩
  · by_contra hge
    rw [List.take_of_length_le (by omega), reportedCount_full _ ds hone] at hbefore
    omega
  · intro k
    obtain ⟨hcnt, _, _, _, hfp, hac⟩ :=
      forward_run exp m s0 hn hphase hzero (ds.take k)
        (fun i hi => by
          have h1 := received_length_take_le ds k i
          have h2 := hone i hi
          omega)
    refine ⟨?_, ?_⟩
    · intro hk
      have hmono := reportedCount_take_mono m.forward_inputs.length ds k k0 hk
      obtain ⟨h1, h2⟩ := hfp (by omega)
      refine ⟨h2, h1, ?_⟩
      rw [hcnt]
      exact_mod_cast lt_of_le_of_lt hmono hbefore
    · intro hk
      have hmono := reportedCount_take_mono m.forward_inputs.length ds (k0 + 1) k hk
      have hle := reportedCount_le m.forward_inputs.length (ds.take k)
      have hfull : reportedCount m.forward_inputs.length (ds.take k)
          = m.forward_inputs.length := by omega
      obtain ⟨h1, h2, h3⟩ := hac hfull
      refine ⟨h1, by rw [hcnt, hfull], ?_⟩
      intro hact
      by_cases hs : s0.activation_function = "sigmoid"
      · exact (h2 hs).2
      · exact (h3 hs (hact.resolve_left hs)).2

/-- Witness of C1 on a constructed neuron with two forward inputs whose channels
report in two different steps, channel 1 first. -/
theorem forward_gate_fires_once_witness :
    ∃ k0, k0 < demoSteps.length ∧
      reportedCount demoNeuron.forward_inputs.length (demoSteps.take k0)
        < demoNeuron.forward_inputs.length ∧
      reportedCount demoNeuron.forward_inputs.length (demoSteps.take (k0 + 1))
        = demoNeuron.forward_inputs.length ∧
      ∀ k,
        (k ≤ k0 →
          extRun demoExp demoNeuron demoNeuron.state (demoSteps.take k)
            = .ok (outcome (extRun demoExp demoNeuron demoNeuron.state (demoSteps.take k))) ∧
          (outcome (extRun demoExp demoNeuron demoNeuron.state
            (demoSteps.take k))).___current_state___ = .Forward_Pass ∧
          (outcome (extRun demoExp demoNeuron demoNeuron.state
            (demoSteps.take k))).inputs_received
            < (demoNeuron.forward_inputs.length : Int)) ∧
        (k0 < k →
          (outcome (extRun demoExp demoNeuron demoNeuron.state
            (demoSteps.take k))).___current_state___ = .Activating ∧
          (outcome (extRun demoExp demoNeuron demoNeuron.state
            (demoSteps.take k))).inputs_received
            = (demoNeuron.forward_inputs.length : Int) ∧
          (demoNeuron.state.activation_function = "sigmoid" ∨
              demoNeuron.state.activation_function = "relu" →
            extRun demoExp demoNeuron demoNeuron.state (demoSteps.take k)
              = .ok (outcome (extRun demoExp demoNeuron demoNeuron.state
                  (demoSteps.take k))))) :=
  forward_gate_fires_once demoExp demoNeuron demoNeuron.state demoSteps
    (by decide) (by rfl) (by rfl) (by decide)

/-- C3 (the code at a failing input). One full cycle of the constructed neuron
`demoNeuron` (weights 1/2, 1/2, 1/5, one backward input): both forward channels
deliver 1, the internal transition leaves `Activating`, the backward channel
delivers 3, and the internal transition leaves `Updating`. The cycle ends in
`Forward_Pass` with `inputs_received = 0` and `sigma` infinite, but `weighted_sum`
is `3 + 1/5`, the backward sum plus bias times last weight, while it was
`1/5 = bias * last weight` at construction: line 173 adds with `+=`. -/
theorem cycle_keeps_backward_sum :
    ∃ s1 s2 s3 s4 : NeuronState ℚ,
      extRun demoExp demoNeuron demoNeuron.state demoSteps = .ok s1 ∧
      s1.___current_state___ = .Activating ∧
      internalTransition demoMse demoNeuron s1 = .ok s2 ∧
      s2.___current_state___ = .Backward_Pass ∧
      extStep demoExp demoNeuron s2 demoBackward = .ok s3 ∧
      s3.___current_state___ = .Updating ∧
      internalTransition demoMse demoNeuron s3 = .ok s4 ∧
      s4.___current_state___ = .Forward_Pass ∧
      s4.inputs_received = 0 ∧
      s4.sigma = .infinity ∧
      s4.weighted_sum = 16 / 5 ∧
      demoNeuron.bias * demoNeuron.state.weights.getLastD 0 = 1 / 5 ∧
      demoNeuron.state.weighted_sum = 1 / 5 := by
  refine ⟨
    { sigma := .finite 1
      ___current_state___ := .Activating
      activation_function := "sigmoid"
      loss_function := "MSE"
      weighted_sum := 6 / 5
      prediction := 25 / 98
      error := 0
      inputs_received := 2
      weights := [1 / 2, 1 / 2, 1 / 5] },
    { sigma := .infinity
      ___current_state___ := .Backward_Pass
      activation_function := "sigmoid"
      loss_function := "MSE"
      weighted_sum := 0
      prediction := 25 / 98
      error := 0
      inputs_received := 0
      weights := [1 / 2, 1 / 2, 1 / 5] },
    { sigma := .finite 1
      ___current_state___ := .Updating
      activation_function := "sigmoid"
      loss_function := "MSE"
      weighted_sum := 3
      prediction := 25 / 98
      error := 0
      inputs_received := 1
      weights := [1 / 2, 1 / 2, 1 / 5] },
    { sigma := .infinity
      ___current_state___ := .Forward_Pass
      activation_function := "sigmoid"
      loss_function := "MSE"
      weighted_sum := 16 / 5
      prediction := 25 / 98
      error := 0
      inputs_received := 0
      weights := [1 / 2, 1 / 2, 1 / 5] },
    ?_, rfl, ?_, rfl, ?_, rfl, ?_, rfl, rfl, rfl, rfl, ?_, ?_⟩
  · rw [demoNeuron_eq]
    simp [demoSteps, extRun, extStep, externalTransition, deliver, forwardLoop, addWeighted,
      List.range_succ, demoExp]
    norm_num
  · rw [demoNeuron_eq]
    simp [internalTransition]
  · rw [demoNeuron_eq]
    simp [demoBackward, extStep, externalTransition, deliver, backwardLoop, addPlain,
      List.range_succ]
  · rw [demoNeuron_eq]
    simp [internalTransition]
    norm_num
  · rw [demoNeuron_eq]
    simp
  · rw [demoNeuron_eq]

/-- C7. A single external transition leaves the phase as it was or at its
successor in the cycle (also when the assertion on the activation kind stops the
call, for the state standing then); a single internal transition always returns,
with the phase as it was or at its successor. -/
theorem phase_steps_along_cycle (exp : α → α) (mse_error : NeuronState α → α) (m : Neuron α)
    (state : NeuronState α) (e : α) :
    ((outcome (externalTransition exp m state e)).___current_state___
        = state.___current_state___ ∨
      (outcome (externalTransition exp m state e)).___current_state___
        = nextPhase state.___current_state___) ∧
    ∃ s, internalTransition mse_error m state = .ok s ∧
      (s.___current_state___ = state.___current_state___ ∨
        s.___current_state___ = nextPhase state.___current_state___) := by
  constructor
  · cases hph : state.___current_state___ with
    | Forward_Pass =>
      simp only [externalTransition, hph, if_true]
      split_ifs <;> simp [outcome, nextPhase, forwardLoop_eq, hph]
    | Backward_Pass =>
      simp only [externalTransition, hph]
      split_ifs <;> simp_all [outcome, nextPhase, backwardLoop_eq]
    | Activating => simp [externalTransition, hph, outcome]
    | Updating => simp [externalTransition, hph, outcome]
  · cases hph : state.___current_state___ with
    | Forward_Pass => exact ⟨state, by simp [internalTransition, hph], Or.inl hph⟩
    | Backward_Pass => exact ⟨state, by simp [internalTransition, hph], Or.inl hph⟩
    | Activating =>
      simp only [internalTransition, hph]
      split_ifs <;> simp [nextPhase]
    | Updating =>
      simp [internalTransition, hph, nextPhase]

/-- C8. The output function always returns and touches only the two output ports,
adding at most one message to each. In `Activating` with `num_of_outputs > 0` it
adds exactly `prediction` to `forward_output` and nothing to `backward_output`; in
`Activating` otherwise it adds nothing; in `Updating` it adds exactly `error` to
`backward_output` and nothing to `forward_output`; in `Forward_Pass` and
`Backward_Pass` it adds nothing to either. -/
theorem output_emits_by_phase (m : Neuron α) (state : NeuronState α) :
    ∃ m1, output m state = .ok m1 ∧
      m1 = { m with forward_output := m1.forward_output,
                    backward_output := m1.backward_output } ∧
      m1.forward_output.length ≤ m.forward_output.length + 1 ∧
      m1.backward_output.length ≤ m.backward_output.length + 1 ∧
      (state.___current_state___ = .Activating → m.num_of_outputs > 0 →
        m1.forward_output = m.forward_output ++ [state.prediction] ∧
        m1.backward_output = m.backward_output) ∧
      (state.___current_state___ = .Activating → ¬ m.num_of_outputs > 0 →
        m1.forward_output = m.forward_output ∧ m1.backward_output = m.backward_output) ∧
      (state.___current_state___ = .Updating →
        m1.backward_output = m.backward_output ++ [state.error] ∧
        m1.forward_output = m.forward_output) ∧
      (state.___current_state___ = .Forward_Pass ∨
          state.___current_state___ = .Backward_Pass →
        m1.forward_output = m.forward_output ∧ m1.backward_output = m.backward_output) := by
  cases hph : state.___current_state___ with
  | Forward_Pass => exact ⟨m, by simp [output, hph], by simp⟩
  | Backward_Pass => exact ⟨m, by simp [output, hph], by simp⟩
  | Activating =>
    by_cases hout : m.num_of_outputs > 0
    · exact ⟨{ m with forward_output := m.forward_output ++ [state.prediction] },
        by simp [output, hph, hout], by simp [hout]⟩
    · exact ⟨m, by simp [output, hph, hout], by simp [hout]⟩
  | Updating =>
    exact ⟨{ m with backward_output := m.backward_output ++ [state.error] },
      by simp [output, hph], by simp⟩

/-- C9 (counterexample). The freshly constructed `demoNeuron` is in `Forward_Pass`;
its internal transition does not fail: it returns the state it was given. -/
theorem internal_in_forward_pass_returns :
    demoNeuron.state.___current_state___ = .Forward_Pass ∧
    internalTransition demoMse demoNeuron demoNeuron.state = .ok demoNeuron.state ∧
    ¬ ∃ a, internalTransition demoMse demoNeuron demoNeuron.state = .error a := by
  have h : internalTransition demoMse demoNeuron demoNeuron.state = .ok demoNeuron.state := by
    rw [demoNeuron_eq]
    simp [internalTransition]
  refine ⟨by rw [demoNeuron_eq], h, ?_⟩
  rintro ⟨a, ha⟩
  rw [h] at ha
  cases ha

/-- C9 (amended). In `Forward_Pass` and in `Backward_Pass` the internal transition
returns normally and leaves every field of the state as it was. -/
theorem internal_idle_phases_noop (mse_error : NeuronState α → α) (m : Neuron α)
    (state : NeuronState α)
    (hphase : state.___current_state___ = .Forward_Pass ∨
      state.___current_state___ = .Backward_Pass) :
    internalTransition mse_error m state = .ok state := by
  rcases hphase with h | h <;> simp [internalTransition, h]

/-- Witness of C9 (amended): `demoNeuron` waiting in `Backward_Pass`. -/
theorem internal_idle_phases_noop_witness :
    internalTransition demoMse demoNeuron
        { demoNeuron.state with ___current_state___ := .Backward_Pass }
      = .ok { demoNeuron.state with ___current_state___ := .Backward_Pass } :=
  internal_idle_phases_noop demoMse demoNeuron
    { demoNeuron.state with ___current_state___ := .Backward_Pass } (Or.inr rfl)

/-- C10 (counterexample). Construction with one forward input and -1 backward
inputs fails at the second assertion, and at that point the forward port
`FInput0` and two weights are already allocated. -/
theorem construction_fails_after_allocating :
    ∃ a : Abort (Neuron ℚ),
      Neuron.new "neuron" 1 (-1) "sigmoid" "MSE" demoDraws 0 = .error a ∧
      a.msg = "Cannot have negative number of outputs" ∧
      a.at_failure.inPorts = ["FInput0"] ∧
      a.at_failure.forward_inputs.length = 1 ∧
      a.at_failure.state.weights = [1 / 2, 1 / 2] := by
  have h1 : Int.toNat 1 = 1 := rfl
  refine ⟨⟨"Cannot have negative number of outputs",
    { (Neuron.base "neuron" 0 : Neuron ℚ) with
      forward_inputs := [[]]
      inPorts := ["FInput0"]
      state := { (NeuronState.default 0 : NeuronState ℚ) with weights := [1 / 2, 1 / 2] } }⟩,
    ?_, rfl, rfl, rfl, rfl⟩
  simp [Neuron.new, pushForwardInputs_eq, Neuron.base, NeuronState.default, h1, demoDraws]
  decide

/-- C10 (amended). Construction fails whenever `num_inputs < 1` or
`num_outputs < 0`. When `num_inputs < 1` it fails at the first assertion with no
port and no weight allocated. When `1 ≤ num_inputs` and `num_outputs < 0` it fails
at the second assertion, with the `num_inputs` forward ports and `num_inputs + 1`
weights allocated and no backward port and no output port. -/
theorem construction_fails_on_bad_counts (id : String) (num_inputs num_outputs : Int)
    (activation_function_in loss_function_in : String) (probDist : Nat → α) (error0 : α)
    (hbad : num_inputs < 1 ∨ num_outputs < 0) :
    ∃ a, Neuron.new id num_inputs num_outputs activation_function_in loss_function_in
        probDist error0 = .error a ∧
      (num_inputs < 1 →
        a.msg = "Must have at least 1 input" ∧
        a.at_failure.inPorts = [] ∧ a.at_failure.outPorts = [] ∧
        a.at_failure.forward_inputs = [] ∧ a.at_failure.backward_inputs = [] ∧
        a.at_failure.state.weights = []) ∧
      (1 ≤ num_inputs →
        a.msg = "Cannot have negative number of outputs" ∧
        a.at_failure.inPorts.length = num_inputs.toNat ∧
        a.at_failure.forward_inputs.length = num_inputs.toNat ∧
        a.at_failure.state.weights.length = num_inputs.toNat + 1 ∧
        a.at_failure.backward_inputs = [] ∧ a.at_failure.outPorts = []) := by
  by_cases hin : num_inputs < 1
  · refine ⟨⟨"Must have at least 1 input", Neuron.base id error0⟩, by simp [Neuron.new, hin],
      ?_, ?_⟩
    · intro _
      simp [Neuron.base, NeuronState.default]
    · intro h; omega
  · have hout : num_outputs < 0 := by
      rcases hbad with h | h
      · exact absurd h hin
      · exact h
    refine ⟨_, by simp only [Neuron.new, hin, hout, if_true, if_false]; rfl, ?_, ?_⟩
    · intro h; exact absurd h hin
    · intro _
      simp [pushForwardInputs_eq, Neuron.base, NeuronState.default]

/-- Witness of C10 (amended): zero forward inputs. -/
theorem construction_fails_on_bad_counts_witness :
    ∃ a : Abort (Neuron ℚ),
      Neuron.new "neuron" 0 1 "sigmoid" "MSE" demoDraws 0 = .error a ∧
      a.msg = "Must have at least 1 input" ∧
      a.at_failure.inPorts = [] ∧ a.at_failure.outPorts = [] ∧
      a.at_failure.forward_inputs = [] ∧ a.at_failure.backward_inputs = [] ∧
      a.at_failure.state.weights = [] := by
  obtain ⟨a, ha, h1, _⟩ :=
    construction_fails_on_bad_counts "neuron" 0 1 "sigmoid" "MSE" demoDraws (0 : ℚ)
      (Or.inl (by norm_num))
  exact ⟨a, ha, h1 (by norm_num)⟩

/-- C11. For `num_inputs = n ≥ 1`, `num_outputs ≥ 0` and every stream of draws in
`[0,1)`, construction returns a neuron with `n` forward ports and exactly `n + 1`
weights, each in `[0,1)`, with `bias = 1`, `weighted_sum = bias * last weight`,
`inputs_received = 0`, phase `Forward_Pass` and `sigma` infinite. -/
theorem construction_initial_state (id : String) (num_inputs num_outputs : Int)
    (activation_function_in loss_function_in : String) (probDist : Nat → α) (error0 : α)
    (hin : 1 ≤ num_inputs) (hout : 0 ≤ num_outputs)
    (hdraw : ∀ i, 0 ≤ probDist i ∧ probDist i < 1) :
    ∃ m, Neuron.new id num_inputs num_outputs activation_function_in loss_function_in
        probDist error0 = .ok m ∧
      m.forward_inputs.length = num_inputs.toNat ∧
      m.state.weights.length = num_inputs.toNat + 1 ∧
      (∀ w ∈ m.state.weights, 0 ≤ w ∧ w < 1) ∧
      m.bias = 1 ∧
      m.state.weighted_sum = m.bias * m.state.weights.getLastD 0 ∧
      m.state.inputs_received = 0 ∧
      m.state.___current_state___ = .Forward_Pass ∧
      timeAdvance m.state = .infinity := by
  refine ⟨_, Neuron.new_ok id num_inputs num_outputs activation_function_in loss_function_in
    probDist error0 hin hout, by simp, by simp, ?_, rfl, ?_, rfl, rfl, rfl⟩
  · intro w hw
    simp only [List.mem_map] at hw
    obtain ⟨i, _, rfl⟩ := hw
    exact hdraw i
  · simp [List.range_succ]

/-- Witness of C11: the draws 1/2, 1/2, 1/5 for two forward inputs. -/
theorem construction_initial_state_witness :
    ∃ m : Neuron ℚ, Neuron.new "neuron" 2 1 "sigmoid" "MSE" demoDraws 0 = .ok m ∧
      m.forward_inputs.length = 2 ∧
      m.state.weights.length = 3 ∧
      (∀ w ∈ m.state.weights, 0 ≤ w ∧ w < 1) ∧
      m.bias = 1 ∧
      m.state.weighted_sum = m.bias * m.state.weights.getLastD 0 ∧
      m.state.inputs_received = 0 ∧
      m.state.___current_state___ = .Forward_Pass ∧
      timeAdvance m.state = .infinity :=
  construction_initial_state "neuron" 2 1 "sigmoid" "MSE" demoDraws 0
    (by norm_num) (by norm_num)
    (by intro i; unfold demoDraws; split_ifs <;> norm_num)

/-- C12. A unit constructed with an activation kind other than `"sigmoid"` and
`"relu"` is constructed without complaint, and every state a run returns from it
is in `Forward_Pass` with `prediction = 0`, where the output function emits
nothing. From such a state an external event that brings `inputs_received` to
the number of forward ports fails on the assertion "Not a valid activation
function"; any other external event returns in `Forward_Pass`. -/
theorem invalid_activation_fails_at_first_use (exp : α → α) (mse_error : NeuronState α → α)
    (id : String) (num_inputs num_outputs : Int)
    (activation_function_in loss_function_in : String) (probDist : Nat → α) (error0 : α)
    (hin : 1 ≤ num_inputs) (hout : 0 ≤ num_outputs)
    (hs : activation_function_in ≠ "sigmoid") (hr : activation_function_in ≠ "relu") :
    ∃ m, Neuron.new id num_inputs num_outputs activation_function_in loss_function_in
        probDist error0 = .ok m ∧
      ∀ evs t, run exp mse_error m ⟨m.state, []⟩ evs = .ok t →
        t.state.___current_state___ = .Forward_Pass ∧
        t.state.prediction = 0 ∧
        output m t.state = .ok m ∧
        ∀ d : Delivery α,
          (t.state.inputs_received +
              ((List.range m.forward_inputs.length).countP
                (fun i => !(d.fwd i).isEmpty) : Nat) = (m.forward_inputs.length : Int) →
            ∃ a, extStep exp m t.state d = .error a ∧
              a.msg = "Not a valid activation function") ∧
          (t.state.inputs_received +
              ((List.range m.forward_inputs.length).countP
                (fun i => !(d.fwd i).isEmpty) : Nat) ≠ (m.forward_inputs.length : Int) →
            ∃ s, extStep exp m t.state d = .ok s ∧
              s.___current_state___ = .Forward_Pass ∧ s.prediction = 0) := by
  obtain ⟨m, hm, _, _, _, _, _, _, _, hstate⟩ :=
    Neuron.new_spec id num_inputs num_outputs activation_function_in loss_function_in
      probDist error0 hin hout
  refine ⟨m, hm, ?_⟩
  intro evs t hrun
  obtain ⟨hph, hpred, hact⟩ := run_stays_forward exp mse_error m evs _ t
    (by rw [hstate]) (by rw [hstate]; exact hs) (by rw [hstate]; exact hr) hrun
  have hpred0 : t.state.prediction = 0 := by rw [hpred, hstate]
  have hact2 : t.state.activation_function = activation_function_in := by rw [hact, hstate]
  refine ⟨hph, hpred0, by simp only [output, hph], ?_⟩
  intro d
  obtain ⟨st, hst, hinc, hcomp⟩ := extStep_forward exp m t.state d hph
  have hcnt : st.inputs_received = t.state.inputs_received +
      ((List.range m.forward_inputs.length).countP (fun i => !(d.fwd i).isEmpty) : Nat) := by
    rw [hst]
  constructor
  · intro hfull
    exact ⟨_, (hcomp (hcnt.trans hfull)).2.2 (by rw [hact2]; exact hs)
      (by rw [hact2]; exact hr), rfl⟩
  · intro hne
    refine ⟨st, hinc (by rw [hcnt]; exact hne), ?_, ?_⟩
    · rw [hst]; exact hph
    · rw [hst]; exact hpred0

/-- Witness of C12: activation kind `"tanh"`, two forward inputs, both delivering
in the first external event. -/
theorem invalid_activation_fails_at_first_use_witness :
    ∃ m : Neuron ℚ, Neuron.new "neuron" 2 1 "tanh" "MSE" demoDraws 0 = .ok m ∧
      ∃ a, extStep demoExp m m.state ⟨fun _ => [1], fun _ => [], 0⟩ = .error a ∧
        a.msg = "Not a valid activation function" := by
  obtain ⟨m, hm, hall⟩ :=
    invalid_activation_fails_at_first_use demoExp demoMse "neuron" 2 1 "tanh" "MSE"
      demoDraws 0 (by norm_num) (by norm_num) (by decide) (by decide)
  obtain ⟨_, _, _, hd⟩ := hall [] ⟨m.state, []⟩ rfl
  have hlen : m.forward_inputs.length = 2 := by
    rw [Neuron.new_ok _ _ _ _ _ _ _ (by norm_num) (by norm_num)] at hm
    cases hm
    rfl
  have hzero : m.state.inputs_received = 0 := by
    rw [Neuron.new_ok _ _ _ _ _ _ _ (by norm_num) (by norm_num)] at hm
    cases hm
    rfl
  exact ⟨m, hm, (hd ⟨fun _ => [1], fun _ => [], 0⟩).1
    (by simp [hlen, hzero, List.range_succ])⟩

/-- C14 (counterexample). On the validly constructed `demoNeuron` (two forward
inputs), forward channel 0 delivers alone and then both forward channels deliver.
The run ends in `Forward_Pass` with `inputs_received = 3`, more than the number
of forward ports. -/
theorem counter_overshoots_forward_ports :
    Neuron.new "neuron" 2 1 "sigmoid" "MSE" demoDraws 0 = .ok demoNeuron ∧
    demoNeuron.forward_inputs.length = 2 ∧
    ∃ t, run demoExp demoMse demoNeuron ⟨demoNeuron.state, []⟩ demoOvershoot = .ok t ∧
      t.state.___current_state___ = .Forward_Pass ∧
      t.state.inputs_received = 3 ∧
      (demoNeuron.forward_inputs.length : Int) < t.state.inputs_received := by
  refine ⟨?_, by rw [demoNeuron_eq]; rfl, ?_⟩
  · rw [demoNeuron, Neuron.new_ok _ _ _ _ _ _ _ (by norm_num) (by norm_num)]
    rfl
  · rw [demoNeuron_eq]
    simp [demoOvershoot, run, step, extStep, externalTransition, deliver, forwardLoop,
      addWeighted, List.range_succ]

/-- C14 (amended). In every state a run returns from a validly constructed neuron,
`inputs_received` equals the number of forward ports in `Activating` and the
number of backward ports in `Updating`, and, when no channel
of the active phase delivered in more than one external event since the counter
was last reset, does not exceed the number of forward ports in `Forward_Pass` and
`Activating` nor the number of backward ports in `Backward_Pass` and `Updating`.
With activation kind `"sigmoid"` or `"relu"` every run returns. -/
theorem counter_bounded_without_repeats (exp : α → α) (mse_error : NeuronState α → α)
    (id : String) (num_inputs num_outputs : Int)
    (activation_function_in loss_function_in : String) (probDist : Nat → α) (error0 : α)
    (hin : 1 ≤ num_inputs) (hout : 0 ≤ num_outputs) :
    ∃ m, Neuron.new id num_inputs num_outputs activation_function_in loss_function_in
        probDist error0 = .ok m ∧
      (∀ evs t, run exp mse_error m ⟨m.state, []⟩ evs = .ok t →
        (t.state.___current_state___ = .Activating →
          t.state.inputs_received = (m.forward_inputs.length : Int)) ∧
        (t.state.___current_state___ = .Updating →
          t.state.inputs_received = (m.backward_inputs.length : Int)) ∧
        (noRepeat t.state.___current_state___
            (activeChannels m t.state.___current_state___) t.log = true →
          ((t.state.___current_state___ = .Forward_Pass ∨
              t.state.___current_state___ = .Activating) →
            t.state.inputs_received ≤ (m.forward_inputs.length : Int)) ∧
          ((t.state.___current_state___ = .Backward_Pass ∨
              t.state.___current_state___ = .Updating) →
            t.state.inputs_received ≤ (m.backward_inputs.length : Int)))) ∧
      (activation_function_in = "sigmoid" ∨ activation_function_in = "relu" →
        ∀ evs, ∃ t, run exp mse_error m ⟨m.state, []⟩ evs = .ok t) := by
  obtain ⟨m, hm, _, _, _, _, _, _, _, hstate⟩ :=
    Neuron.new_spec id num_inputs num_outputs activation_function_in loss_function_in
      probDist error0 hin hout
  refine ⟨m, hm, ?_, ?_⟩
  · intro evs t hrun
    obtain ⟨hJ, hA, hU⟩ := run_counts exp mse_error m evs m.state t
      (by rw [hstate]) (by rw [hstate]) hrun
    refine ⟨hA, hU, fun hno => ?_⟩
    have heq := deliveryCount_eq_distinctCount _ _ _ hno
    have hle := distinctCount_le t.state.___current_state___
      (activeChannels m t.state.___current_state___) t.log
    have hbound : t.state.inputs_received
        ≤ (activeChannels m t.state.___current_state___ : Int) := by
      rw [hJ, heq]; exact_mod_cast hle
    constructor
    · intro hph
      rcases hph with hph | hph <;> rw [hph] at hbound <;> exact hbound
    · intro hph
      rcases hph with hph | hph <;> rw [hph] at hbound <;> exact hbound
  · intro hact evs
    exact run_returns exp mse_error m evs _ (by rw [hstate]; exact hact)

/-- Witness of C14 (amended): `demoNeuron` after the first event of `demoSteps`, in
`Forward_Pass` with one of its two forward channels counted. -/
theorem counter_bounded_without_repeats_witness :
    ∃ m : Neuron ℚ, Neuron.new "neuron" 2 1 "sigmoid" "MSE" demoDraws 0 = .ok m ∧
      ∃ t, run demoExp demoMse m ⟨m.state, []⟩ ((demoSteps.take 1).map Event.external)
          = .ok t ∧
        t.state.___current_state___ = .Forward_Pass ∧
        t.state.inputs_received = 1 ∧
        t.state.inputs_received ≤ (m.forward_inputs.length : Int) := by
  obtain ⟨m, hm, hinv, _⟩ :=
    counter_bounded_without_repeats demoExp demoMse "neuron" 2 1 "sigmoid" "MSE" demoDraws 0
      (by norm_num) (by norm_num)
  have hmeq : m = demoNeuron := by
    rw [demoNeuron, hm]; rfl
  have h1 : ∃ t, run demoExp demoMse m ⟨m.state, []⟩ ((demoSteps.take 1).map Event.external)
      = .ok t ∧
      t.state.___current_state___ = .Forward_Pass ∧ t.state.inputs_received = 1 ∧
      t.log = demoSteps.take 1 := by
    rw [hmeq, demoNeuron_eq]
    simp [demoSteps, run, step, extStep, externalTransition, deliver, forwardLoop,
      addWeighted, List.range_succ]
  obtain ⟨t, hrun, hph, hcnt, hlog⟩ := h1
  have hlen : activeChannels m .Forward_Pass = 2 := by
    rw [hmeq, demoNeuron_eq]; rfl
  have hno : noRepeat t.state.___current_state___
      (activeChannels m t.state.___current_state___) t.log = true := by
    rw [hph, hlen, hlog]
    simp [noRepeat, demoSteps, activeBags, List.range_succ]
  exact ⟨m, hm, t, hrun, hph, hcnt, ((hinv _ t hrun).2.2 hno).1 (Or.inl hph)⟩

/-- C15 (counterexample). The neuron `demoRelu` is validly constructed with one
forward input and no backward input. After its forward input and one internal
event it is in `Backward_Pass` with `sigma = 1`, so the internal transition is
scheduled there. The internal event takes the branch of line 164, whose
right-hand side is missing; the result is the same whatever stands there, since
only `state.error` is assigned. -/
theorem terminal_neuron_scheduled_in_backward_pass :
    Neuron.new "relu0" 1 0 "relu" "MSE" (fun i => if i = 1 then (1 / 5 : ℚ) else 1 / 2) 0
      = .ok demoRelu ∧
    ∀ mse_error : NeuronState ℚ → ℚ,
      ∃ t, run demoExp mse_error demoRelu ⟨demoRelu.state, []⟩ demoTerminal = .ok t ∧
        t.state.___current_state___ = .Backward_Pass ∧
        timeAdvance t.state = .finite 1 ∧
        timeAdvance t.state ≠ .infinity := by
  constructor
  · rw [demoRelu, Neuron.new_ok _ _ _ _ _ _ _ (by norm_num) (by norm_num)]
    rfl
  · intro mse_error
    rw [demoRelu_eq]
    simp [demoTerminal, run, step, extStep, externalTransition, deliver, forwardLoop,
      addWeighted, internalTransition, timeAdvance, List.range_succ]

/-- C15 (amended). For a validly constructed neuron (at least one forward input, no
negative number of backward inputs) and whatever stands on line 164, every state
a run of external and internal events returns has `sigma` infinite in
`Forward_Pass` and `sigma = 1` in `Activating` and `Updating`; when the unit has
at least one backward input, `sigma` is infinite in `Backward_Pass` too. With
activation kind `"sigmoid"` or `"relu"` every run returns. -/
theorem idle_phases_are_unscheduled (exp : α → α) (mse_error : NeuronState α → α)
    (id : String) (num_inputs num_outputs : Int)
    (activation_function_in loss_function_in : String) (probDist : Nat → α) (error0 : α)
    (hin : 1 ≤ num_inputs) (hout : 0 ≤ num_outputs) :
    ∃ m, Neuron.new id num_inputs num_outputs activation_function_in loss_function_in
        probDist error0 = .ok m ∧
      (∀ evs t, run exp mse_error m ⟨m.state, []⟩ evs = .ok t →
        (t.state.___current_state___ = .Forward_Pass →
          timeAdvance t.state = .infinity) ∧
        ((t.state.___current_state___ = .Activating ∨
            t.state.___current_state___ = .Updating) →
          timeAdvance t.state = .finite 1) ∧
        (1 ≤ num_outputs → t.state.___current_state___ = .Backward_Pass →
          timeAdvance t.state = .infinity)) ∧
      (activation_function_in = "sigmoid" ∨ activation_function_in = "relu" →
        ∀ evs, ∃ t, run exp mse_error m ⟨m.state, []⟩ evs = .ok t) := by
  obtain ⟨m, hm, _, hk, _, _, _, _, _, hstate⟩ :=
    Neuron.new_spec id num_inputs num_outputs activation_function_in loss_function_in
      probDist error0 hin hout
  refine ⟨m, hm, ?_, ?_⟩
  · intro evs t hrun
    obtain ⟨h1, h2, h3⟩ := run_sigma_by_phase exp mse_error m evs _ t
      (by rw [hstate]) (by rw [hstate]) hrun
    exact ⟨h1, h2, fun hpos => h3 (by rw [hk]; omega)⟩
  · intro hact evs
    exact run_returns exp mse_error m evs _ (by rw [hstate]; exact hact)

/-- Witness of C15 (amended): `demoNeuron`, which has one backward input, after its
two forward inputs is in `Activating` with `sigma = 1`, after a further internal
event it is in `Backward_Pass` with `sigma` infinite, and after one full cycle it
is in `Forward_Pass` with `sigma` infinite. -/
theorem idle_phases_are_unscheduled_witness :
    ∃ m : Neuron ℚ, Neuron.new "neuron" 2 1 "sigmoid" "MSE" demoDraws 0 = .ok m ∧
      (∃ t, run demoExp demoMse m ⟨m.state, []⟩ (demoSteps.map Event.external) = .ok t ∧
        t.state.___current_state___ = .Activating ∧ timeAdvance t.state = .finite 1) ∧
      (∃ t, run demoExp demoMse m ⟨m.state, []⟩
          (demoSteps.map Event.external ++ [.internal]) = .ok t ∧
        t.state.___current_state___ = .Backward_Pass ∧ timeAdvance t.state = .infinity) ∧
      (∃ t, run demoExp demoMse m ⟨m.state, []⟩ demoCycle = .ok t ∧
        t.state.___current_state___ = .Forward_Pass ∧ timeAdvance t.state = .infinity) := by
  obtain ⟨m, hm, hinv, _⟩ :=
    idle_phases_are_unscheduled demoExp demoMse "neuron" 2 1 "sigmoid" "MSE" demoDraws 0
      (by norm_num) (by norm_num)
  have hmeq : m = demoNeuron := by
    rw [demoNeuron, hm]; rfl
  have h1 : ∃ t, run demoExp demoMse m ⟨m.state, []⟩ (demoSteps.map Event.external) = .ok t ∧
      t.state.___current_state___ = .Activating := by
    rw [hmeq, demoNeuron_eq]
    simp [demoSteps, run, step, extStep, externalTransition, deliver, forwardLoop,
      addWeighted, List.range_succ]
  have h2 : ∃ t, run demoExp demoMse m ⟨m.state, []⟩
      (demoSteps.map Event.external ++ [.internal]) = .ok t ∧
      t.state.___current_state___ = .Backward_Pass := by
    rw [hmeq, demoNeuron_eq]
    simp [demoSteps, run, step, extStep, externalTransition, deliver, forwardLoop,
      addWeighted, internalTransition, List.range_succ]
  have h3 : ∃ t, run demoExp demoMse m ⟨m.state, []⟩ demoCycle = .ok t ∧
      t.state.___current_state___ = .Forward_Pass := by
    rw [hmeq, demoNeuron_eq]
    simp [demoCycle, demoSteps, demoBackward, run, step, extStep, externalTransition,
      deliver, forwardLoop, addWeighted, backwardLoop, addPlain, internalTransition,
      List.range_succ]
  obtain ⟨t1, r1, p1⟩ := h1
  obtain ⟨t2, r2, p2⟩ := h2
  obtain ⟨t3, r3, p3⟩ := h3
  exact ⟨m, hm, ⟨t1, r1, p1, (hinv _ t1 r1).2.1 (Or.inl p1)⟩,
    ⟨t2, r2, p2, (hinv _ t2 r2).2.2 (by norm_num) p2⟩,
    ⟨t3, r3, p3, (hinv _ t3 r3).1 p3⟩⟩

/-- C16. In `Activating` and in `Updating` the external transition returns the
state it was given, whatever the elapsed time and whatever the input ports hold:
no field changes, `sigma` included. -/
theorem external_ignored_when_busy (exp : α → α) (m : Neuron α) (state : NeuronState α) (e : α)
    (hphase : state.___current_state___ = .Activating ∨
      state.___current_state___ = .Updating) :
    externalTransition exp m state e = .ok state := by
  rcases hphase with h | h <;> simp [externalTransition, h]

/-- Witness of C16: `demoNeuron` in `Activating` with values on all its input ports. -/
theorem external_ignored_when_busy_witness :
    externalTransition demoExp
        (deliver demoNeuron ⟨fun _ => [1, 2], fun _ => [3], 5⟩)
        { demoNeuron.state with ___current_state___ := .Activating, sigma := .finite 1 } 5
      = .ok { demoNeuron.state with ___current_state___ := .Activating, sigma := .finite 1 } :=
  external_ignored_when_busy demoExp
    (deliver demoNeuron ⟨fun _ => [1, 2], fun _ => [3], 5⟩)
    { demoNeuron.state with ___current_state___ := .Activating, sigma := .finite 1 } 5
    (Or.inl rfl)

/-- C17. A neuron constructed with `num_inputs = n ≥ 1` and `num_outputs ≥ 0` has
`n + 1` weights, and every state a run of external and internal events returns
from it has the same list of weights. For any neuron and any state at all, the
external transition leaves `weights` as it was (also in the state standing at a
failed assertion) and the internal transition returns with `weights` as it was. -/
theorem weights_never_change (exp : α → α) (mse_error : NeuronState α → α)
    (id : String) (num_inputs num_outputs : Int)
    (activation_function_in loss_function_in : String) (probDist : Nat → α) (error0 : α)
    (hin : 1 ≤ num_inputs) (hout : 0 ≤ num_outputs) :
    ∃ m, Neuron.new id num_inputs num_outputs activation_function_in loss_function_in
        probDist error0 = .ok m ∧
      m.state.weights.length = num_inputs.toNat + 1 ∧
      (∀ evs t, run exp mse_error m ⟨m.state, []⟩ evs = .ok t →
        t.state.weights = m.state.weights ∧
        t.state.weights.length = num_inputs.toNat + 1) ∧
      (∀ (m1 : Neuron α) (state : NeuronState α) (e : α),
        (outcome (externalTransition exp m1 state e)).weights = state.weights ∧
        ∃ s, internalTransition mse_error m1 state = .ok s ∧ s.weights = state.weights) := by
  refine ⟨_, Neuron.new_ok id num_inputs num_outputs activation_function_in loss_function_in
    probDist error0 hin hout, by simp, ?_, ?_⟩
  · intro evs t hrun
    have h := run_induction exp mse_error _
      (fun t => t.state.weights = (List.range (num_inputs.toNat + 1)).map probDist)
      (fun t ev t1 ht hs => by
        have := (step_frame exp mse_error _ t t1 ev hs).1
        simpa [this] using ht)
      evs _ t rfl hrun
    simp only at h
    exact ⟨h, by rw [h]; simp⟩
  · intro m1 state e
    refine ⟨(externalTransition_frame exp m1 state e).1, ?_⟩
    obtain ⟨s, hs, hw, _⟩ := internalTransition_frame mse_error m1 state
    exact ⟨s, hs, hw⟩

/-- Witness of C17: `demoNeuron` after one full cycle still has its three weights. -/
theorem weights_never_change_witness :
    ∃ m : Neuron ℚ, Neuron.new "neuron" 2 1 "sigmoid" "MSE" demoDraws 0 = .ok m ∧
      m.state.weights = [1 / 2, 1 / 2, 1 / 5] ∧
      ∃ t, run demoExp demoMse m ⟨m.state, []⟩ demoCycle = .ok t ∧
        t.state.weights = [1 / 2, 1 / 2, 1 / 5] := by
  obtain ⟨m, hm, _, hrun, _⟩ :=
    weights_never_change demoExp demoMse "neuron" 2 1 "sigmoid" "MSE" demoDraws 0
      (by norm_num) (by norm_num)
  have hw : m.state.weights = [1 / 2, 1 / 2, 1 / 5] := by
    have h2 : Int.toNat 2 = 2 := rfl
    rw [Neuron.new_ok _ _ _ _ _ _ _ (by norm_num) (by norm_num)] at hm
    cases hm
    simp [h2, List.range_succ, demoDraws]
  have hact : m.state.activation_function = "sigmoid" := by
    rw [Neuron.new_ok _ _ _ _ _ _ _ (by norm_num) (by norm_num)] at hm
    cases hm
    rfl
  obtain ⟨t, ht⟩ := run_returns demoExp demoMse m demoCycle ⟨m.state, []⟩ (Or.inl hact)
  exact ⟨m, hm, hw, t, ht, by rw [(hrun demoCycle t ht).1, hw]⟩

/-- C18. For a neuron constructed with at least one backward input: no external
transition and no internal transition writes `error`; every state a run returns
has the `error` the constructor left, so two runs, whatever their events, emit
the same value on `backward_output` in `Updating`; and two backward deliveries to
the same state in `Backward_Pass` on which the same channels deliver, with
whatever values, return states that differ in `weighted_sum` at most. -/
theorem emitted_error_independent_of_backward_values (exp : α → α)
    (mse_error : NeuronState α → α) (id : String) (num_inputs num_outputs : Int)
    (activation_function_in loss_function_in : String) (probDist : Nat → α) (error0 : α)
    (hin : 1 ≤ num_inputs) (hout : 1 ≤ num_outputs) :
    ∃ m, Neuron.new id num_inputs num_outputs activation_function_in loss_function_in
        probDist error0 = .ok m ∧
      (∀ (state : NeuronState α) (d : Delivery α),
        (outcome (extStep exp m state d)).error = state.error) ∧
      (∀ state : NeuronState α,
        ∃ s, internalTransition mse_error m state = .ok s ∧ s.error = state.error) ∧
      (∀ evs1 evs2 t1 t2,
        run exp mse_error m ⟨m.state, []⟩ evs1 = .ok t1 →
        run exp mse_error m ⟨m.state, []⟩ evs2 = .ok t2 →
        t1.state.error = error0 ∧ t2.state.error = error0 ∧
        (t1.state.___current_state___ = .Updating →
          t2.state.___current_state___ = .Updating →
          ∃ m1 m2, output m t1.state = .ok m1 ∧ output m t2.state = .ok m2 ∧
            m1.backward_output = m.backward_output ++ [error0] ∧
            m2.backward_output = m.backward_output ++ [error0])) ∧
      (∀ (state : NeuronState α) (d1 d2 : Delivery α),
        state.___current_state___ = .Backward_Pass →
        (∀ j < m.backward_inputs.length, (d1.bwd j).isEmpty = (d2.bwd j).isEmpty) →
        ∃ s1 s2, extStep exp m state d1 = .ok s1 ∧ extStep exp m state d2 = .ok s2 ∧
          s2 = { s1 with weighted_sum := s2.weighted_sum }) := by
  obtain ⟨m, hm, _, hk, _, _, _, _, _, hstate⟩ :=
    Neuron.new_spec id num_inputs num_outputs activation_function_in loss_function_in
      probDist error0 hin (by omega)
  have hpos : m.num_of_outputs > 0 := by rw [hk]; omega
  have herr : m.state.error = error0 := by rw [hstate]
  refine ⟨m, hm, ?_, ?_, ?_, ?_⟩
  · intro state d
    exact (externalTransition_frame exp _ state d.e).2.1
  · intro state
    obtain ⟨s, hs, _, _, _, he⟩ := internalTransition_frame mse_error m state
    exact ⟨s, hs, he hpos⟩
  · intro evs1 evs2 t1 t2 h1 h2
    have e1 := (run_keeps_error exp mse_error m hpos evs1 _ t1 h1).trans herr
    have e2 := (run_keeps_error exp mse_error m hpos evs2 _ t2 h2).trans herr
    refine ⟨e1, e2, fun p1 p2 => ?_⟩
    exact ⟨{ m with backward_output := m.backward_output ++ [t1.state.error] },
      { m with backward_output := m.backward_output ++ [t2.state.error] },
      by simp only [output, p1], by simp only [output, p2], by simp [e1], by simp [e2]⟩
  · intro state d1 d2 hph hsame
    exact backward_values_reach_weighted_sum_only exp m state d1 d2 hph hsame

/-- Witness of C18: `demoNeuron` brought to `Updating` once with the backward
value 3 and once with the backward value 7; the accumulated sums differ and the
`error` to emit is the same. -/
theorem emitted_error_independent_of_backward_values_witness :
    ∃ m : Neuron ℚ, Neuron.new "neuron" 2 1 "sigmoid" "MSE" demoDraws 0 = .ok m ∧
      ∃ t1 t2, run demoExp demoMse m ⟨m.state, []⟩ (demoToUpdating 3) = .ok t1 ∧
        run demoExp demoMse m ⟨m.state, []⟩ (demoToUpdating 7) = .ok t2 ∧
        t1.state.___current_state___ = .Updating ∧
        t2.state.___current_state___ = .Updating ∧
        t1.state.weighted_sum = 3 ∧ t2.state.weighted_sum = 7 ∧
        t1.state.error = 0 ∧ t2.state.error = 0 := by
  obtain ⟨m, hm, _, _, hruns, _⟩ :=
    emitted_error_independent_of_backward_values demoExp demoMse "neuron" 2 1 "sigmoid" "MSE"
      demoDraws 0 (by norm_num) (by norm_num)
  have hmeq : m = demoNeuron := by
    rw [demoNeuron, hm]; rfl
  have hval : ∀ v : ℚ, ∃ t, run demoExp demoMse m ⟨m.state, []⟩ (demoToUpdating v) = .ok t ∧
      t.state.___current_state___ = .Updating ∧ t.state.weighted_sum = v := by
    intro v
    rw [hmeq, demoNeuron_eq]
    simp [demoToUpdating, demoSteps, run, step, extStep, externalTransition, deliver,
      forwardLoop, addWeighted, backwardLoop, addPlain, internalTransition, List.range_succ]
  obtain ⟨t1, h1, p1, w1⟩ := hval 3
  obtain ⟨t2, h2, p2, w2⟩ := hval 7
  obtain ⟨e1, e2, _⟩ := hruns _ _ t1 t2 h1 h2
  exact ⟨m, hm, t1, t2, h1, h2, p1, p2, w1, w2, e1, e2⟩

/-- C20. Two constructions that differ only in `loss_function_in` return the same
object, for valid counts a neuron whose `loss_function` is `"MSE"` and whose
`activation_function` is the argument `activation_function_in`. -/
theorem loss_argument_ignored (id : String) (num_inputs num_outputs : Int)
    (activation_function_in loss1 loss2 : String) (probDist : Nat → α) (error0 : α)
    (hin : 1 ≤ num_inputs) (hout : 0 ≤ num_outputs) :
    Neuron.new id num_inputs num_outputs activation_function_in loss1 probDist error0
      = Neuron.new id num_inputs num_outputs activation_function_in loss2 probDist error0 ∧
    ∃ m, Neuron.new id num_inputs num_outputs activation_function_in loss1 probDist error0
        = .ok m ∧
      Neuron.new id num_inputs num_outputs activation_function_in loss2 probDist error0
        = .ok m ∧
      m.state.loss_function = "MSE" ∧
      m.state.activation_function = activation_function_in :=
  ⟨rfl, _, Neuron.new_ok id num_inputs num_outputs activation_function_in loss1 probDist
    error0 hin hout, Neuron.new_ok id num_inputs num_outputs activation_function_in loss2
    probDist error0 hin hout, rfl, rfl⟩

/-- Witness of C20: loss kinds `"MSE"` and `"log_loss"`, activation kind `"relu"`. -/
theorem loss_argument_ignored_witness :
    (Neuron.new "neuron" 2 1 "relu" "MSE" demoDraws 0
      = Neuron.new "neuron" 2 1 "relu" "log_loss" demoDraws 0) ∧
    ∃ m : Neuron ℚ, Neuron.new "neuron" 2 1 "relu" "MSE" demoDraws 0 = .ok m ∧
      Neuron.new "neuron" 2 1 "relu" "log_loss" demoDraws 0 = .ok m ∧
      m.state.loss_function = "MSE" ∧
      m.state.activation_function = "relu" :=
  loss_argument_ignored "neuron" 2 1 "relu" "MSE" "log_loss" demoDraws 0
    (by norm_num) (by norm_num)

end Claims

end Neuron_Space
